import Mathlib

/-!
# mitum-currency: weighted key sets, threshold check, genesis bootstrap

A shallow embedding of `currency/keys.go`, `currency/keys_encode.go`,
`currency/genesis_currencies_process.go`, the key block of `parseFlags` in
`cmds/key_updater.go` and `cmd/cmds/create_account.go`, and
`digest/handler_send.go`. The processor behind
`currency/currency_policy_updater_process_test.go` is not among the sources and
is modelled from the specification.

Conventions of the embedding

* A Go `[]byte` and a Go `string` are both byte sequences; they are modelled by
  `GoBytes := List Nat`.
* Go `uint` is taken at its 64-bit width; additions on it are written with an
  explicit `% UintMod`.
* A Go `error` result is `Option Err` (`none` is `nil`); a `(value, error)`
  result is `Except Err value` unless the source returns the value on the error
  path too.
* Types and functions of other modules (`key.Publickey`, `valuehash.Hash`,
  `util.UintToBytes`, `valuehash.NewSHA256`) are parameters, collected in `Ext`.
-/

namespace MitumCurrency

/-- Byte sequence: the contents of a Go byte slice or of a Go string. -/
abbrev GoBytes := List Nat

/-- Number of values of a Go `uint` (64-bit targets). -/
def UintMod : Nat := 2 ^ 64

/-- Error values. One constructor per `xerrors.Errorf` site of the embedded
sources, `ext` for an error produced by code of another module, and
`ignore` for `util.IgnoreError.Wrap`. -/
inductive Err where
  /-- invalid key weight, 1 <= weight <= 100 -/
  | invalidKeyWeight
  /-- invalid threshold, %d, should be 1 <= threshold <= 100 -/
  | invalidThreshold (threshold : Nat)
  /-- empty keys -/
  | emptyKeys
  /-- keys over %d, %d -/
  | keysOver (max n : Nat)
  /-- duplicated keys found -/
  | duplicatedKeys
  /-- sum of weight under threshold, %d < %d -/
  | weightUnderThreshold (total threshold : Nat)
  /-- hash not matched -/
  | hashNotMatched
  /-- unknown key found, %s -/
  | unknownKey (signer : GoBytes)
  /-- not passed threshold, sum=%d < threshold=%d -/
  | notPassedThreshold (sum threshold : Nat)
  /-- not Key: %T -/
  | notKey
  /-- the state named by the number (see `StateName`) already exists -/
  | alreadyExists (name : Nat)
  /-- an error returned by code outside the embedded sources -/
  | ext (code : Nat)
  /-- the error wrapped by util.IgnoreError -/
  | ignore (inner : Err)
  /-- unsupported message type, %T -/
  | unsupportedMessageType
  /-- the configuration error whose text contains "empty publickeys" -/
  | emptyPublickeys
  /-- the rejection whose text contains "not enough suffrage signs" -/
  | notEnoughSuffrageSigns
  /-- the state that must exist is not found -/
  | notFound
  deriving DecidableEq, Repr

/-- The collaborators from other modules that `keys.go` calls: the methods of
`key.Publickey` (on a type `PK`), of `valuehash.Hash` (on a type `H`),
`util.UintToBytes` and `valuehash.NewSHA256`. -/
structure Ext (PK H : Type) where
  /-- Method `key.Publickey.String()`. -/
  pkString : PK → GoBytes
  /-- Method `key.Publickey.Bytes()`. -/
  pkBytes : PK → GoBytes
  /-- Method `key.Publickey.IsValid(nil)`. -/
  pkIsValid : PK → Option Err
  /-- Method `key.Publickey.Equal`. -/
  pkEqual : PK → PK → Bool
  /-- Function `util.UintToBytes`. -/
  UintToBytes : Nat → GoBytes
  /-- Function `valuehash.NewSHA256`. -/
  NewSHA256 : GoBytes → H
  /-- Method `valuehash.Hash.IsValid(nil)`. -/
  hashIsValid : H → Option Err
  /-- Method `valuehash.Hash.Equal`. -/
  hashEqual : H → H → Bool

/-- Function `util.ConcatBytesSlice`: the byte slices one after the other. -/
def ConcatBytesSlice (sl : List GoBytes) : GoBytes := sl.flatten

/-- Function `bytes.Compare`: lexicographic comparison, -1, 0 or 1. -/
def bytesCompare : GoBytes → GoBytes → Int
  | [], [] => 0
  | [], _ :: _ => -1
  | _ :: _, [] => 1
  | a :: as, b :: bs =>
    if a < b then -1 else if b < a then 1 else bytesCompare as bs

/-! ## Key -/

/-- Type `type Key struct { k key.Publickey; w uint }`. The getter `Key()` is the
field `k`. -/
structure Key (PK : Type) where
  k : PK
  w : Nat
  deriving DecidableEq, Repr

/-- Variable `MaxKeyInKeys`, set from `maxKeyInKeys = 10` in `init`. -/
def MaxKeyInKeys : Nat := 10

section KeyDefs

variable {PK H : Type} (X : Ext PK H)

/-- Method `Key.IsValid`. -/
def Key.IsValid (ky : Key PK) : Option Err :=
  if ky.w < 1 ∨ ky.w > 100 then
    some Err.invalidKeyWeight
  else
    match X.pkIsValid ky.k with
    | some err => some err
    | none => none

/-- Function `NewKey`: the key is returned together with the result of its validation. -/
def NewKey (k : PK) (w : Nat) : Key PK × Option Err :=
  let key : Key PK := { k := k, w := w }
  (key, key.IsValid X)

/-- Method `Key.Weight`. -/
def Key.Weight (ky : Key PK) : Nat := ky.w

/-- Method `Key.Bytes`. -/
def Key.Bytes (ky : Key PK) : GoBytes :=
  ConcatBytesSlice [X.pkString ky.k, X.UintToBytes ky.w]

/-- Method `Key.Equal`. -/
def Key.Equal (ky b : Key PK) : Bool :=
  if ky.w ≠ b.w then false
  else if !X.pkEqual ky.k b.k then false
  else true

end KeyDefs

/-! ## sort.Slice -/

section SortSlice

variable {α : Type}

/-- One round of the inner loop of the insertion sort behind `sort.Slice`
(`for j := i; j > a && less(j, j-1); j-- { swap(j, j-1) }`): the element `x`
enters at the right end of the already ordered part and moves left while it is
`less` than its left neighbour. The ordered part is held right-to-left. -/
def insertLeftward (less : α → α → Bool) (x : α) : List α → List α
  | [] => [x]
  | y :: ys => if less x y then y :: insertLeftward less x ys else x :: y :: ys

/-- Function `sort.Slice(s, less)`, as the contents of `s` after the call. The
library sorts a short slice by insertion sort (`for i := a + 1; i < b; i++`
around the loop of `insertLeftward`); that algorithm is embedded here for every
length. It is the library's own algorithm up to length 12 (length 6 before
Go 1.19), and for every length it returns what the library returns whenever no
two elements are tied under `less`, since an ordered arrangement is then
unique. -/
def sortSlice (less : α → α → Bool) (s : List α) : List α :=
  (s.foldl (fun done x => insertLeftward less x done) []).reverse

end SortSlice

/-! ## Keys -/

/-- Type `type Keys struct { h valuehash.Hash; keys []Key; threshold uint }`.
The field `h` holds a hash value (a nil interface value is outside the
model). The getters `Hash()` and `Keys()` are the fields `h` and `keys`. -/
structure Keys (PK H : Type) where
  h : H
  keys : List (Key PK)
  threshold : Nat
  deriving DecidableEq, Repr

/-- Type `operation.FactSign`, of which `checkThreshold` reads `Signer()`. -/
structure FactSign (PK : Type) where
  signer : PK
  signature : GoBytes
  deriving DecidableEq, Repr

section KeysDefs

variable {PK H : Type} (X : Ext PK H)

/-- The `less` closure handed to `sort.Slice` in `Keys.Bytes` and `Keys.Equal`:
`bytes.Compare(keys[i].Key().Bytes(), keys[j].Key().Bytes()) < 0`. -/
def keyLess (a b : Key PK) : Bool :=
  decide (bytesCompare (X.pkBytes a.k) (X.pkBytes b.k) < 0)

/-- Contents of the key slice after the in-place `sort.Slice` call of
`Keys.Bytes` (the slice is shared with the receiver and with the caller). -/
def sortKeys (keys : List (Key PK)) : List (Key PK) :=
  sortSlice (keyLess X) keys

/-- Body of `Keys.Bytes`, which reads the fields `keys` and `threshold` only. -/
def keysBytes (keys : List (Key PK)) (threshold : Nat) : GoBytes :=
  ConcatBytesSlice ((sortKeys X keys).map (Key.Bytes X) ++ [X.UintToBytes threshold])

/-- Method `Keys.Bytes`, the returned bytes. -/
def Keys.Bytes (ks : Keys PK H) : GoBytes :=
  keysBytes X ks.keys ks.threshold

/-- Receiver of `Keys.Bytes` after the call: its key slice has been sorted in
place. -/
def Keys.afterBytes (ks : Keys PK H) : Keys PK H :=
  { ks with keys := sortKeys X ks.keys }

/-- Method `Keys.GenerateHash`: `valuehash.NewSHA256(ks.Bytes()), nil`. The error
component is always nil and is left out. -/
def Keys.GenerateHash (ks : Keys PK H) : H :=
  X.NewSHA256 (ks.Bytes X)

/-- The loop of `Keys.IsValid` over the keys, `m` being the strings seen so
far (the Go map `m`). -/
def checkEachKey : List (Key PK) → List GoBytes → Option Err
  | [], _ => none
  | key :: rest, m =>
    match key.IsValid X with
    | some err => some err
    | none =>
      if X.pkString key.k ∈ m then some Err.duplicatedKeys
      else checkEachKey rest (X.pkString key.k :: m)

/-- The loop `totalWeight += ks.keys[i].Weight()` on a `uint`. -/
def totalWeight (keys : List (Key PK)) : Nat :=
  keys.foldl (fun acc ky => (acc + ky.Weight) % UintMod) 0

/-- Method `Keys.IsValid`. -/
def Keys.IsValid (ks : Keys PK H) : Option Err :=
  if ks.threshold < 1 ∨ ks.threshold > 100 then
    some (Err.invalidThreshold ks.threshold)
  else
    match X.hashIsValid ks.h with
    | some err => some err
    | none =>
      if ks.keys.length < 1 then some Err.emptyKeys
      else if ks.keys.length > MaxKeyInKeys then
        some (Err.keysOver MaxKeyInKeys ks.keys.length)
      else
        match checkEachKey X ks.keys [] with
        | some err => some err
        | none =>
          if totalWeight ks.keys < ks.threshold then
            some (Err.weightUnderThreshold (totalWeight ks.keys) ks.threshold)
          else if !X.hashEqual ks.h (ks.GenerateHash X) then
            some Err.hashNotMatched
          else none

/-- Function `NewKeys`. `ks.GenerateHash()` runs on `Keys{keys, threshold}`; it
sorts the shared key slice in place, so the value that is validated and
returned holds the sorted keys. -/
def NewKeys (keys : List (Key PK)) (threshold : Nat) : Keys PK H × Option Err :=
  let h : H := X.NewSHA256 (keysBytes X keys threshold)
  let ks : Keys PK H := { h := h, keys := sortKeys X keys, threshold := threshold }
  (ks, ks.IsValid X)

/-- Method `Keys.Threshold`. -/
def Keys.Threshold (ks : Keys PK H) : Nat := ks.threshold

/-- Method `Keys.Equal`. -/
def Keys.Equal (ks b : Keys PK H) : Bool :=
  if ks.threshold ≠ b.threshold then false
  else if ks.keys.length ≠ b.keys.length then false
  else
    ((sortKeys X ks.keys).zip (sortKeys X b.keys)).all (fun p => Key.Equal X p.1 p.2)

/-- Method `Keys.Key`: the first key of the set whose public key is `Equal` to
`k`, if there is one. -/
def Keys.Key (ks : Keys PK H) (k : PK) : Option (MitumCurrency.Key PK) :=
  ks.keys.find? (fun ky => X.pkEqual ky.k k)

/-- The loop of `checkThreshold`: the running `uint` sum, or the error of the
first signer that is not in the key set. -/
def checkThresholdLoop (keys : Keys PK H) : List (FactSign PK) → Nat → Except Err Nat
  | [], sum => Except.ok sum
  | f :: rest, sum =>
    match keys.Key X f.signer with
    | some ky => checkThresholdLoop keys rest ((sum + ky.Weight) % UintMod)
    | none => Except.error (Err.unknownKey (X.pkString f.signer))

/-- Function `checkThreshold`. -/
def checkThreshold (fs : List (FactSign PK)) (keys : Keys PK H) : Option Err :=
  match checkThresholdLoop X keys fs 0 with
  | Except.error err => some err
  | Except.ok sum =>
    if sum < keys.Threshold then some (Err.notPassedThreshold sum keys.Threshold)
    else none

end KeysDefs

/-! ## GenesisCurrencies.Process -/

/-- Type `CurrencyID`, a Go string. -/
abbrev CurrencyID := GoBytes

/-- Modelled from the spec: `Amount` is declared outside the embedded sources;
the spec gives it as a magnitude (a non-negative integer of any size) and a
currency id. -/
structure Amount where
  big : Nat
  cid : CurrencyID
  deriving DecidableEq, Repr

/-- Modelled from the spec: `NewAmount(big, cid)` builds the `Amount` of that
magnitude and currency. -/
def NewAmount (big : Nat) (cid : CurrencyID) : Amount := { big := big, cid := cid }

/-- Modelled from the spec: `CurrencyDesign` is declared outside the embedded
sources; the spec gives it as the total-supply `Amount`, the address of the
genesis account and the currency policy (the test file builds it with
`NewCurrencyDesign(NewAmount(big, cid), ga, policy)`). -/
structure CurrencyDesign (A P : Type) where
  amount : Amount
  genesisAccount : A
  policy : P
  deriving DecidableEq, Repr

/-- Modelled from the spec: `CurrencyDesign.Big()`, the magnitude of the total
supply. -/
def CurrencyDesign.Big {A P : Type} (c : CurrencyDesign A P) : Nat := c.amount.big

/-- Modelled from the spec: `CurrencyDesign.Currency()`, the currency of the
total supply. -/
def CurrencyDesign.Currency {A P : Type} (c : CurrencyDesign A P) : CurrencyID :=
  c.amount.cid

/-- Modelled from the spec: `GenesisCurrenciesFact` is declared outside the
embedded sources; `Process` reads its hash, its `keys` and its list `cs` of
currency designs. -/
structure GenesisCurrenciesFact (PK H A P : Type) where
  h : H
  token : GoBytes
  keys : Keys PK H
  cs : List (CurrencyDesign A P)

/-- Type `GenesisCurrencies`, the operation; `Process` reads its fact. -/
structure GenesisCurrencies (PK H A P : Type) where
  fact : GenesisCurrenciesFact PK H A P

/-- The three names that `Process` hands to `notExistsState`. -/
inductive StateName where
  /-- key of genesis -/
  | keyOfGenesis
  /-- currency -/
  | currency
  /-- balance of genesis -/
  | balanceOfGenesis
  deriving DecidableEq, Repr

/-- Number of a state name inside `Err.alreadyExists`. -/
def StateName.code : StateName → Nat
  | StateName.keyOfGenesis => 0
  | StateName.currency => 1
  | StateName.balanceOfGenesis => 2

/-- The functions of this module that `Process` calls and that are declared
outside the embedded sources, as parameters: `A` is `base.Address`, `S` is
`state.State`, `Acc` is `Account`. -/
structure GenesisExt (PK H A P S Acc : Type) where
  /-- Function `NewAddressFromKeys`. -/
  NewAddressFromKeys : Keys PK H → Except Err A
  /-- Function `StateKeyAccount`. -/
  StateKeyAccount : A → GoBytes
  /-- Function `StateKeyCurrencyDesign`. -/
  StateKeyCurrencyDesign : CurrencyID → GoBytes
  /-- Function `StateKeyBalance`. -/
  StateKeyBalance : A → CurrencyID → GoBytes
  /-- Function `NewAmountState`. -/
  NewAmountState : S → CurrencyID → S
  /-- Function `NewAccountFromKeys`. -/
  NewAccountFromKeys : Keys PK H → Except Err Acc
  /-- Function `SetStateAccountValue`. -/
  SetStateAccountValue : S → Acc → Except Err S
  /-- Function `SetStateBalanceValue`. -/
  SetStateBalanceValue : S → Amount → Except Err S
  /-- Function `SetStateCurrencyDesignValue`. -/
  SetStateCurrencyDesignValue : S → CurrencyDesign A P → Except Err S
  /-- The nil value of `state.State`, read from a Go map at an absent key. -/
  nilState : S

/-- A call made on the state pool: `getState(key)` or
`setState(hash, states...)`. -/
inductive PoolCall (H S : Type) where
  | getState (key : GoBytes)
  | setState (h : H) (states : List S)
  deriving DecidableEq, Repr

/-- A Go `map[CurrencyID]state.State`: the assignments made so far, latest
first. -/
abbrev StateMap (S : Type) := List (CurrencyID × S)

/-- Assignment `m[cid] = st`. -/
def StateMap.set {S : Type} (m : StateMap S) (cid : CurrencyID) (st : S) : StateMap S :=
  (cid, st) :: m

/-- Lookup `m[cid]`: the latest assignment, or the nil value. -/
def StateMap.get {S : Type} (m : StateMap S) (nilState : S) (cid : CurrencyID) : S :=
  (m.lookup cid).getD nilState

section GenesisDefs

variable {PK H A P S Acc : Type} (G : GenesisExt PK H A P S Acc)

/-- Modelled from the spec: `notExistsState(key, name, getState)` is declared
outside the embedded sources. It makes the one lookup `getState(key)`, returns
the error of a failed lookup, fails with "name already exists" when the state
is found, and returns the looked-up state otherwise. -/
def notExistsState (key : GoBytes) (name : StateName)
    (getState : GoBytes → Except Err (S × Bool)) : Except Err S :=
  match getState key with
  | Except.error err => Except.error err
  | Except.ok (st, found) =>
    if found then Except.error (Err.alreadyExists name.code) else Except.ok st

/-- Modelled from the spec: `GenesisCurrenciesFact.Address()`, the address
derived from the keys of the fact. -/
def GenesisCurrenciesFact.Address (fact : GenesisCurrenciesFact PK H A P) : Except Err A :=
  G.NewAddressFromKeys fact.keys

/-- Method `GenesisCurrenciesFact.Hash()`. -/
def GenesisCurrenciesFact.Hash (fact : GenesisCurrenciesFact PK H A P) : H := fact.h

/-- The first loop of `Process` (`for i := range fact.cs`), with the pool calls
it makes: for each design the currency-design state and then the balance state
of the genesis account must not exist. -/
def checkCurrencies (getState : GoBytes → Except Err (S × Bool)) (newAddress : A) :
    List (CurrencyDesign A P) → StateMap S → StateMap S →
      List (PoolCall H S) × Except Err (StateMap S × StateMap S)
  | [], gas, sts => ([], Except.ok (gas, sts))
  | c :: rest, gas, sts =>
    match notExistsState (G.StateKeyCurrencyDesign c.Currency) StateName.currency getState with
    | Except.error err =>
      ([PoolCall.getState (G.StateKeyCurrencyDesign c.Currency)], Except.error err)
    | Except.ok st =>
      match notExistsState (G.StateKeyBalance newAddress c.Currency)
          StateName.balanceOfGenesis getState with
      | Except.error err =>
        ([PoolCall.getState (G.StateKeyCurrencyDesign c.Currency),
          PoolCall.getState (G.StateKeyBalance newAddress c.Currency)], Except.error err)
      | Except.ok bst =>
        let r := checkCurrencies getState newAddress rest
          (gas.set c.Currency (G.NewAmountState bst c.Currency)) (sts.set c.Currency st)
        (PoolCall.getState (G.StateKeyCurrencyDesign c.Currency) ::
          PoolCall.getState (G.StateKeyBalance newAddress c.Currency) :: r.1, r.2)

/-- The second loop of `Process`: for each design the balance state and the
currency-design state are appended to `states`. -/
def appendCurrencyStates (gas sts : StateMap S) :
    List (CurrencyDesign A P) → List S → Except Err (List S)
  | [], states => Except.ok states
  | c :: rest, states =>
    match G.SetStateBalanceValue (gas.get G.nilState c.Currency)
        (NewAmount c.Big c.Currency) with
    | Except.error err => Except.error err
    | Except.ok gst =>
      match G.SetStateCurrencyDesignValue (sts.get G.nilState c.Currency) c with
      | Except.error err => Except.error err
      | Except.ok dst => appendCurrencyStates gas sts rest (states ++ [gst, dst])

/-- Method `GenesisCurrencies.Process`: the pool calls made, in order, and the
returned error. `getState` is a view of the pool and `setState` gives the
error that the pool returns for a write. -/
def GenesisCurrencies.Process (op : GenesisCurrencies PK H A P)
    (getState : GoBytes → Except Err (S × Bool))
    (setState : H → List S → Option Err) : List (PoolCall H S) × Option Err :=
  let fact := op.fact
  match fact.Address G with
  | Except.error err => ([], some (Err.ignore err))
  | Except.ok newAddress =>
    match notExistsState (G.StateKeyAccount newAddress) StateName.keyOfGenesis getState with
    | Except.error err => ([PoolCall.getState (G.StateKeyAccount newAddress)], some err)
    | Except.ok ns =>
      match checkCurrencies G getState newAddress fact.cs [] [] with
      | (calls, Except.error err) =>
        (PoolCall.getState (G.StateKeyAccount newAddress) :: calls, some err)
      | (calls, Except.ok (gas, sts)) =>
        match G.NewAccountFromKeys fact.keys with
        | Except.error err =>
          (PoolCall.getState (G.StateKeyAccount newAddress) :: calls, some err)
        | Except.ok ac =>
          match G.SetStateAccountValue ns ac with
          | Except.error err =>
            (PoolCall.getState (G.StateKeyAccount newAddress) :: calls, some (Err.ignore err))
          | Except.ok st =>
            match appendCurrencyStates G gas sts fact.cs [st] with
            | Except.error err =>
              (PoolCall.getState (G.StateKeyAccount newAddress) :: calls, some err)
            | Except.ok states =>
              (PoolCall.getState (G.StateKeyAccount newAddress) :: calls ++
                [PoolCall.setState fact.Hash states], setState fact.Hash states)

end GenesisDefs

/-! ## Decoding (keys_encode.go) -/

/-- What `enc.DecodeByHint` yields: a hinter that is a `Key`, or a value of
another type. -/
inductive Hinter (PK : Type) where
  | key (ky : Key PK)
  | other
  deriving DecidableEq, Repr

section UnpackDefs

variable {PK H : Type}

/-- Method `Key.unpack`: the weight is stored first, then the decoded public
key; `decoded` is the result of `kd.Encode(enc)`. The receiver after the call
and the returned error. -/
def Key.unpack (ky : Key PK) (w : Nat) (decoded : Except Err PK) : Key PK × Option Err :=
  match decoded with
  | Except.error err => ({ ky with w := w }, some err)
  | Except.ok k => ({ k := k, w := w }, none)

/-- The loop of `Keys.unpack` over the encoded keys. -/
def unpackKeys (DecodeByHint : GoBytes → Except Err (Hinter PK)) :
    List GoBytes → Except Err (List (Key PK))
  | [] => Except.ok []
  | b :: rest =>
    match DecodeByHint b with
    | Except.error err => Except.error err
    | Except.ok Hinter.other => Except.error Err.notKey
    | Except.ok (Hinter.key k) =>
      match unpackKeys DecodeByHint rest with
      | Except.error err => Except.error err
      | Except.ok keys => Except.ok (k :: keys)

/-- Method `Keys.unpack`: the hash is stored first, as given; keys and
threshold are stored once every key is decoded. The receiver after the call
and the returned error. -/
def Keys.unpack (ks : Keys PK H) (DecodeByHint : GoBytes → Except Err (Hinter PK))
    (h : H) (bkeys : List GoBytes) (th : Nat) : Keys PK H × Option Err :=
  match unpackKeys DecodeByHint bkeys with
  | Except.error err => ({ ks with h := h }, some err)
  | Except.ok keys => ({ h := h, keys := keys, threshold := th }, none)

end UnpackDefs

/-! ## Quantities used in the statements -/

section StatementDefs

variable {PK H : Type} (X : Ext PK H)

/-- Weight that `checkThreshold` adds for a signer: the weight of the key
found by `Keys.Key`, and 0 for a signer that is not found. -/
def signerWeight (keys : Keys PK H) (signer : PK) : Nat :=
  match keys.Key X signer with
  | some ky => ky.Weight
  | none => 0

/-- Sum of the weights of the signers' keys, one term per entry of the
signature list, as a natural number (no wrap-around). -/
def listedWeight (fs : List (FactSign PK)) (keys : Keys PK H) : Nat :=
  (fs.map (fun f => signerWeight X keys f.signer)).sum

/-- Combined weight of the distinct keys of the set that appear as signers:
each key of the set that some entry of the signature list names counts once. -/
def distinctSignerWeight (fs : List (FactSign PK)) (keys : Keys PK H) : Nat :=
  ((keys.keys.filter (fun ky => fs.any (fun f => X.pkEqual ky.k f.signer))).map
    Key.Weight).sum

/-- Every signer of the list is found in the key set. -/
def allSignersKnown (fs : List (FactSign PK)) (keys : Keys PK H) : Prop :=
  ∀ f ∈ fs, (keys.Key X f.signer).isSome = true

/-- Ascending order of raw public-key bytes (ties allowed). -/
def ascendingByKeyBytes (keys : List (Key PK)) : Prop :=
  keys.Pairwise (fun a b => bytesCompare (X.pkBytes a.k) (X.pkBytes b.k) ≤ 0)

end StatementDefs

/-! ## Conditions on the state pool used in the statements -/

section GenesisStatementDefs

variable {PK H A P S Acc : Type}

/-- The pool call is a `getState`. -/
def PoolCall.isGet : PoolCall H S → Bool
  | PoolCall.getState _ => true
  | PoolCall.setState _ _ => false

/-- No `setState` among the calls. -/
def onlyGets (calls : List (PoolCall H S)) : Bool := calls.all PoolCall.isGet

/-- The state at `key` already exists: `getState` finds it. -/
def existsAt (getState : GoBytes → Except Err (S × Bool)) (key : GoBytes) : Prop :=
  ∃ st, getState key = Except.ok (st, true)

/-- The lookup of `key` fails: `getState` returns an error. -/
def lookupFails (getState : GoBytes → Except Err (S × Bool)) (key : GoBytes) : Prop :=
  ∃ err, getState key = Except.error err

/-- One of the conditions under which `Process` must not write: the address
cannot be derived, or the account state, a currency-design state or a balance
state of a listed currency exists already or cannot be looked up, or the
account cannot be built, or one of the state-value conversions that `Process`
makes returns an error. -/
def GenesisBlocked (G : GenesisExt PK H A P S Acc) (op : GenesisCurrencies PK H A P)
    (getState : GoBytes → Except Err (S × Bool)) : Prop :=
  (∃ err, op.fact.Address G = Except.error err) ∨
  (∃ a, op.fact.Address G = Except.ok a ∧
    ((existsAt getState (G.StateKeyAccount a) ∨ lookupFails getState (G.StateKeyAccount a)) ∨
     (∃ c ∈ op.fact.cs,
        existsAt getState (G.StateKeyCurrencyDesign c.Currency) ∨
        lookupFails getState (G.StateKeyCurrencyDesign c.Currency) ∨
        existsAt getState (G.StateKeyBalance a c.Currency) ∨
        lookupFails getState (G.StateKeyBalance a c.Currency)) ∨
     (∃ err, G.NewAccountFromKeys op.fact.keys = Except.error err) ∨
     (∃ ns ac err, getState (G.StateKeyAccount a) = Except.ok (ns, false) ∧
        G.NewAccountFromKeys op.fact.keys = Except.ok ac ∧
        G.SetStateAccountValue ns ac = Except.error err) ∨
     (∃ c ∈ op.fact.cs, ∃ bst err,
        getState (G.StateKeyBalance a c.Currency) = Except.ok (bst, false) ∧
        G.SetStateBalanceValue (G.NewAmountState bst c.Currency)
          (NewAmount c.Big c.Currency) = Except.error err) ∨
     (∃ c ∈ op.fact.cs, ∃ st err,
        getState (G.StateKeyCurrencyDesign c.Currency) = Except.ok (st, false) ∧
        G.SetStateCurrencyDesignValue st c = Except.error err)))

/-- The `getState` calls of a run in which every check passes: the account
key, then for each listed currency its currency-design key and the balance key
of the genesis account. -/
def genesisLookups (G : GenesisExt PK H A P S Acc) (a : A)
    (cs : List (CurrencyDesign A P)) : List (PoolCall H S) :=
  PoolCall.getState (G.StateKeyAccount a) ::
    cs.flatMap (fun c => [PoolCall.getState (G.StateKeyCurrencyDesign c.Currency),
      PoolCall.getState (G.StateKeyBalance a c.Currency)])

end GenesisStatementDefs

/-! ## Effects on the shared key slice -/

section EffectDefs

variable {PK H : Type} (X : Ext PK H)

/-- Method `Keys.IsValid` together with the contents of the key slice after the
call: the slice is sorted in place by the `GenerateHash()` call of the last
step and by nothing else, so a call that returns at an earlier check leaves it
as it was. -/
def Keys.IsValidRun (ks : Keys PK H) : Option Err × List (MitumCurrency.Key PK) :=
  if ks.threshold < 1 ∨ ks.threshold > 100 then
    (some (Err.invalidThreshold ks.threshold), ks.keys)
  else
    match X.hashIsValid ks.h with
    | some err => (some err, ks.keys)
    | none =>
      if ks.keys.length < 1 then (some Err.emptyKeys, ks.keys)
      else if ks.keys.length > MaxKeyInKeys then
        (some (Err.keysOver MaxKeyInKeys ks.keys.length), ks.keys)
      else
        match checkEachKey X ks.keys [] with
        | some err => (some err, ks.keys)
        | none =>
          if totalWeight ks.keys < ks.threshold then
            (some (Err.weightUnderThreshold (totalWeight ks.keys) ks.threshold), ks.keys)
          else if !X.hashEqual ks.h (ks.GenerateHash X) then
            (some Err.hashNotMatched, sortKeys X ks.keys)
          else (none, sortKeys X ks.keys)

/-- Method `Keys.Equal` together with the contents of the two key slices after
the call: both are sorted in place once the thresholds and the lengths have
been found equal. -/
def Keys.EqualRun (ks b : Keys PK H) :
    Bool × List (MitumCurrency.Key PK) × List (MitumCurrency.Key PK) :=
  if ks.threshold ≠ b.threshold then (false, ks.keys, b.keys)
  else if ks.keys.length ≠ b.keys.length then (false, ks.keys, b.keys)
  else
    (((sortKeys X ks.keys).zip (sortKeys X b.keys)).all (fun p => Key.Equal X p.1 p.2),
      sortKeys X ks.keys, sortKeys X b.keys)

/-- The block of `KeyUpdaterCommand.parseFlags` and of
`CreateAccountCommand.parseFlags` that builds the key set: `NewKeys`, then
`IsValid` once more on the value it returned. -/
def parseFlagsKeys (ks : List (Key PK)) (threshold : Nat) : Except Err (Keys PK H) :=
  match NewKeys X ks threshold with
  | (_, some err) => Except.error err
  | (kys, none) =>
    match Keys.IsValid X { kys with keys := (Keys.IsValidRun X kys).2 } with
    | some err => Except.error err
    | none => Except.ok { kys with keys := (Keys.IsValidRun X kys).2 }

/-- Ascending order of weight (ties allowed). -/
def ascendingByWeight (keys : List (Key PK)) : Prop :=
  keys.Pairwise (fun a b => a.w ≤ b.w)

/-- Descending order of weight (ties allowed). -/
def descendingByWeight (keys : List (Key PK)) : Prop :=
  keys.Pairwise (fun a b => b.w ≤ a.w)

end EffectDefs

/-! ## CurrencyPolicyUpdater (modelled from the spec) -/

/-- Modelled from the spec: the fact of a `CurrencyPolicyUpdater` is declared
outside the embedded sources; the spec gives its input as a currency id and a
new `CurrencyPolicy`, next to the token and hash that every fact has. -/
structure CurrencyPolicyUpdaterFact (H P : Type) where
  h : H
  token : GoBytes
  cid : CurrencyID
  policy : P

/-- Modelled from the spec: the `CurrencyPolicyUpdater` operation is declared
outside the embedded sources; it pairs the fact with its fact signatures (the
test file builds it with `NewCurrencyPolicyUpdater(fact, fs, "")`). -/
structure CurrencyPolicyUpdater (PK H P : Type) where
  fact : CurrencyPolicyUpdaterFact H P
  fs : List (FactSign PK)

/-- Modelled from the spec: the `CurrencyPolicyUpdaterProcessor` is declared
outside the embedded sources; it is configured with the validator public keys
and the threshold, the number of validator signatures required (the test file
builds it with `NewCurrencyPolicyUpdaterProcessor(nil, pubs, threshold)`). -/
structure CurrencyPolicyUpdaterProcessor (PK : Type) where
  pubs : List PK
  threshold : Nat

/-- The state functions that the processor calls, as parameters: `S` is
`state.State`. -/
structure PolicyExt (A P S : Type) where
  /-- Function `StateKeyCurrencyDesign`. -/
  StateKeyCurrencyDesign : CurrencyID → GoBytes
  /-- Function `StateCurrencyDesignValue`. -/
  StateCurrencyDesignValue : S → Except Err (CurrencyDesign A P)
  /-- Function `SetStateCurrencyDesignValue`. -/
  SetStateCurrencyDesignValue : S → CurrencyDesign A P → Except Err S

section PolicyDefs

variable {PK H A P S : Type} (X : Ext PK H) (E : PolicyExt A P S)

/-- Modelled from the spec: the loop of the threshold authorizer over the
validator set. For each signature entry the signer is looked up in the set; a
signer that is absent fails at once as an unknown signer; each entry that is
matched counts one. -/
def countSuffrageSigns (pubs : List PK) : List (FactSign PK) → Except Err Nat
  | [] => Except.ok 0
  | f :: rest =>
    if pubs.any (fun p => X.pkEqual p f.signer) then
      match countSuffrageSigns pubs rest with
      | Except.error err => Except.error err
      | Except.ok n => Except.ok (n + 1)
    else Except.error (Err.unknownKey (X.pkString f.signer))

/-- Modelled from the spec: the threshold authorizer run against the validator
set. Configured with no public key at all it fails with the "empty publickeys"
error; otherwise it counts the matched signatures and fails with "not enough
suffrage signs" when the count is strictly less than the threshold. -/
def checkSuffrageSigns (pubs : List PK) (threshold : Nat) (fs : List (FactSign PK)) :
    Option Err :=
  if pubs.length < 1 then some Err.emptyPublickeys
  else
    match countSuffrageSigns X pubs fs with
    | Except.error err => some err
    | Except.ok signed =>
      if signed < threshold then some Err.notEnoughSuffrageSigns else none

/-- Modelled from the spec: the "must-exist" precondition on the state pool. It
makes the one lookup `getState(key)`, returns the error of a failed lookup,
fails with "not found" when the state is absent, and returns the state
otherwise. -/
def existsState (key : GoBytes) (getState : GoBytes → Except Err (S × Bool)) : Except Err S :=
  match getState key with
  | Except.error err => Except.error err
  | Except.ok (st, found) => if found then Except.ok st else Except.error Err.notFound

/-- Modelled from the spec: processing of a `CurrencyPolicyUpdater`, in the
order of the shared shape of the processors. The fact signatures are checked
against the validator set; the `CurrencyDesign` state of the currency must
exist; the new design is the current one with only the policy replaced; the
one new state is handed to `setState`, keyed by the fact hash. The pool calls
made, in order, and the returned error. -/
def CurrencyPolicyUpdaterProcessor.Process (opp : CurrencyPolicyUpdaterProcessor PK)
    (op : CurrencyPolicyUpdater PK H P)
    (getState : GoBytes → Except Err (S × Bool))
    (setState : H → List S → Option Err) : List (PoolCall H S) × Option Err :=
  match checkSuffrageSigns X opp.pubs opp.threshold op.fs with
  | some err => ([], some err)
  | none =>
    match existsState (E.StateKeyCurrencyDesign op.fact.cid) getState with
    | Except.error err =>
      ([PoolCall.getState (E.StateKeyCurrencyDesign op.fact.cid)], some err)
    | Except.ok st =>
      match E.StateCurrencyDesignValue st with
      | Except.error err =>
        ([PoolCall.getState (E.StateKeyCurrencyDesign op.fact.cid)], some err)
      | Except.ok de =>
        match E.SetStateCurrencyDesignValue st { de with policy := op.fact.policy } with
        | Except.error err =>
          ([PoolCall.getState (E.StateKeyCurrencyDesign op.fact.cid)], some err)
        | Except.ok nst =>
          ([PoolCall.getState (E.StateKeyCurrencyDesign op.fact.cid),
            PoolCall.setState op.fact.h [nst]], setState op.fact.h [nst])

end PolicyDefs

/-! ## digest/handler_send.go -/

/-- The value handed to `sendItem`, by the case of its type switch that it
takes: an `operation.Seal`, another `seal.Seal`, an `operation.Operation`, or a
value of any other type. -/
inductive SendItem (O OS SL : Type) where
  | operationSeal (t : OS)
  | otherSeal (t : SL)
  | operation (t : O)
  | other
  deriving DecidableEq, Repr

/-- The collaborators of the send handler, as parameters: `O` is
`operation.Operation`, `OS` is `operation.Seal`, `SL` is any other `seal.Seal`,
`R` is `json.RawMessage`, `SS` is the seal that `send` returns and `HL` is
`Hal`. The network id of the handler is fixed inside the validations. -/
structure SendExt (O OS SL R SS HL : Type) where
  /-- Method `operation.Operation.IsValid(hd.networkID)`. -/
  opIsValid : O → Option Err
  /-- Method `operation.Seal.Operations()`. -/
  Operations : OS → List O
  /-- Method `IsValid(hd.networkID)` of an `operation.Seal`. -/
  opSealIsValid : OS → Option Err
  /-- Method `IsValid(hd.networkID)` of another `seal.Seal`. -/
  sealIsValid : SL → Option Err
  /-- Test `xerrors.Is(err, key.SignatureVerificationFailedError)`. -/
  isSignatureVerificationFailed : Err → Bool
  /-- Expression `(operation.BaseSeal{}).SetOperations(ops)`. -/
  SetOperations : List O → OS
  /-- Method `hd.enc.DecodeByHint`; `none` is a hinter that is not an
  `operation.Operation`. -/
  DecodeByHint : R → Except Err (Option O)
  /-- Method `hd.buildSealHal`, which makes no call of `send`. -/
  buildSealHal : SS → Except Err HL

section SendDefs

variable {O OS SL R SS HL : Type} (E : SendExt O OS SL R SS HL)

/-- Method `Handlers.sendSeal`: the one call `hd.send(v)`, and the `Hal` built
from the seal it returns. The values handed to `send`, in order, and the
result. -/
def sendSeal (send : SendItem O OS SL → Except Err SS) (v : SendItem O OS SL) :
    List (SendItem O OS SL) × Except Err HL :=
  match send v with
  | Except.error err => ([v], Except.error err)
  | Except.ok sl => ([v], E.buildSealHal sl)

/-- The loop of `sendItem` over the operations of an `operation.Seal`: the
error of the first operation that fails `IsValid`. -/
def firstInvalidOperation : List O → Option Err
  | [] => none
  | op :: rest =>
    match E.opIsValid op with
    | some err => some err
    | none => firstInvalidOperation rest

/-- Method `Handlers.sendItem`. -/
def sendItem (send : SendItem O OS SL → Except Err SS) (v : SendItem O OS SL) :
    List (SendItem O OS SL) × Except Err HL :=
  match v with
  | SendItem.operationSeal t =>
    match firstInvalidOperation E (E.Operations t) with
    | some err => ([], Except.error err)
    | none =>
      match E.opSealIsValid t with
      | some err =>
        if !E.isSignatureVerificationFailed err then ([], Except.error err)
        else sendSeal E send v
      | none => sendSeal E send v
  | SendItem.otherSeal t =>
    match E.sealIsValid t with
    | some err => ([], Except.error err)
    | none => sendSeal E send v
  | SendItem.operation t =>
    match E.opIsValid t with
    | some err => ([], Except.error err)
    | none => sendSeal E send v
  | SendItem.other => ([], Except.error Err.unsupportedMessageType)

/-- The loop of `sendOperations`: every raw message is decoded, must be an
operation and must pass `IsValid`. -/
def decodeOperations : List R → Except Err (List O)
  | [] => Except.ok []
  | r :: rest =>
    match E.DecodeByHint r with
    | Except.error err => Except.error err
    | Except.ok none => Except.error Err.unsupportedMessageType
    | Except.ok (some op) =>
      match E.opIsValid op with
      | some err => Except.error err
      | none =>
        match decodeOperations rest with
        | Except.error err => Except.error err
        | Except.ok ops => Except.ok (op :: ops)

/-- Method `Handlers.sendOperations`. -/
def sendOperations (send : SendItem O OS SL → Except Err SS) (v : List R) :
    List (SendItem O OS SL) × Except Err HL :=
  match decodeOperations E v with
  | Except.error err => ([], Except.error err)
  | Except.ok ops => sendSeal E send (SendItem.operationSeal (E.SetOperations ops))

end SendDefs

/-! ## Signature lists used in the statements -/

/-- The signature list in which each key of the set signs exactly once, in any
order: its signers are a rearrangement of the public keys of the set. -/
def signsOncePerKey {PK H : Type} (fs : List (FactSign PK)) (keys : Keys PK H) : Prop :=
  (fs.map FactSign.signer).Perm (keys.keys.map (fun ky => ky.k))

/-! ## The checks of Keys.IsValid that come before the sort -/

/-- One of the checks that `Keys.IsValid` makes before it regenerates the hash
fails: the threshold is out of range, the stored hash fails its validation,
the key list is empty or longer than `MaxKeyInKeys`, a key fails its
validation, two keys have the same `String()`, or the `uint` total weight is
below the threshold. -/
def failsBeforeHash {PK H : Type} (X : Ext PK H) (ks : Keys PK H) : Prop :=
  (ks.threshold < 1 ∨ ks.threshold > 100) ∨
  (∃ err, X.hashIsValid ks.h = some err) ∨
  ks.keys.length < 1 ∨
  ks.keys.length > MaxKeyInKeys ∨
  (∃ ky ∈ ks.keys, ∃ err, ky.IsValid X = some err) ∨
  ¬ (ks.keys.map (fun ky => X.pkString ky.k)).Nodup ∨
  totalWeight ks.keys < ks.threshold

/-! ## A concrete environment for evaluation -/

/-- An environment in which everything can be evaluated: public keys are byte
sequences that are their own string and byte form and are always valid, a hash
is the hashed bytes themselves (a stand-in for SHA-256), and `UintToBytes` is
the 8-byte big-endian form. -/
def demoExt : Ext GoBytes GoBytes where
  pkString := fun k => k
  pkBytes := fun k => k
  pkIsValid := fun _ => none
  pkEqual := fun a b => decide (a = b)
  UintToBytes := fun n => (List.range 8).reverse.map (fun i => n / 256 ^ i % 256)
  NewSHA256 := fun b => b
  hashIsValid := fun _ => none
  hashEqual := fun a b => decide (a = b)

/-- Two keys of weight 50 and a key set of threshold 100 built from them. -/
def demoKeyA : Key GoBytes := { k := [1], w := 50 }

/-- Second key of weight 50. -/
def demoKeyB : Key GoBytes := { k := [2], w := 50 }

/-- Key set of `demoKeyB` and `demoKeyA` with threshold 100, as `NewKeys`
returns it. -/
def demoKeys : Keys GoBytes GoBytes := (NewKeys demoExt [demoKeyB, demoKeyA] 100).1

/-- The value `demoKeys` with the threshold lowered to 60 after hashing. -/
def demoTamperedKeys : Keys GoBytes GoBytes := { demoKeys with threshold := 60 }

/-- A fact signature by the public key `k`. -/
def demoSign (k : GoBytes) : FactSign GoBytes := { signer := k, signature := [] }

/-- An unvalidated key set with one key of weight 2^63 and threshold 1. -/
def demoHeavyKeys : Keys GoBytes GoBytes :=
  { h := [], keys := [{ k := [1], w := 2 ^ 63 }], threshold := 1 }

/-- Value held by a state of the demo pool. -/
inductive DemoValue where
  | nothing
  | account (address : GoBytes)
  | amount (am : Amount)
  | design (cd : CurrencyDesign GoBytes Unit)
  deriving DecidableEq, Repr

/-- State of the demo pool: a key and the value set on it. -/
structure DemoState where
  key : GoBytes
  value : DemoValue
  deriving DecidableEq, Repr

/-- An environment for `GenesisCurrencies.Process` in which everything can be
evaluated: an address is the hash of the keys, state keys are tagged byte
sequences, an account is its key set, and setting a value never fails. -/
def demoGenesisExt : GenesisExt GoBytes GoBytes GoBytes Unit DemoState (Keys GoBytes GoBytes) where
  NewAddressFromKeys := fun ks => Except.ok ks.h
  StateKeyAccount := fun a => 0 :: a
  StateKeyCurrencyDesign := fun cid => 1 :: cid
  StateKeyBalance := fun a cid => 2 :: (a ++ 0 :: cid)
  NewAmountState := fun st _ => st
  NewAccountFromKeys := fun ks => Except.ok ks
  SetStateAccountValue := fun st ac => Except.ok { st with value := DemoValue.account ac.h }
  SetStateBalanceValue := fun st am => Except.ok { st with value := DemoValue.amount am }
  SetStateCurrencyDesignValue := fun st cd => Except.ok { st with value := DemoValue.design cd }
  nilState := { key := [], value := DemoValue.nothing }

/-- A view of a pool in which exactly the states with the listed keys exist. -/
def demoGetState (existing : List GoBytes) (key : GoBytes) : Except Err (DemoState × Bool) :=
  Except.ok ({ key := key, value := DemoValue.nothing }, decide (key ∈ existing))

/-- A pool whose writes succeed. -/
def demoSetState (_ : GoBytes) (_ : List DemoState) : Option Err := none

/-- A currency design: 1000 units of currency `[7]`. -/
def demoDesignA : CurrencyDesign GoBytes Unit :=
  { amount := { big := 1000, cid := [7] }, genesisAccount := demoKeys.h, policy := () }

/-- A currency design: 33 units of currency `[8]`. -/
def demoDesignB : CurrencyDesign GoBytes Unit :=
  { amount := { big := 33, cid := [8] }, genesisAccount := demoKeys.h, policy := () }

/-- A genesis operation listing the two demo designs. -/
def demoGenesis : GenesisCurrencies GoBytes GoBytes GoBytes Unit :=
  { fact := { h := [9, 9], token := [], keys := demoKeys, cs := [demoDesignA, demoDesignB] } }

/-- An encoding of a key for the demo decoder: the weight, then the public
key. -/
def demoEncodeKey (ky : Key GoBytes) : GoBytes := ky.w :: ky.k

/-- A decoder for `demoEncodeKey`; the empty message is not a key. -/
def demoDecodeByHint (b : GoBytes) : Except Err (Hinter GoBytes) :=
  match b with
  | [] => Except.ok Hinter.other
  | w :: k => Except.ok (Hinter.key { k := k, w := w })

/-- Three keys whose order by public-key bytes is neither ascending nor
descending by weight. -/
def demoMixedKeys : List (Key GoBytes) :=
  [{ k := [1], w := 50 }, { k := [2], w := 10 }, { k := [3], w := 30 }]

/-- An unvalidated key set with the keys out of order and the threshold 0. -/
def demoUnsortedKeys : Keys GoBytes GoBytes :=
  { h := [], keys := [demoKeyB, demoKeyA], threshold := 0 }

/-- A send handler environment in which everything can be evaluated: an
operation is a number and 0 is the invalid one, an operation seal is the list
of its operations and is itself valid, and every message decodes to the
operation of its number. -/
def demoSendExt : SendExt Nat (List Nat) Nat Nat Unit Unit where
  opIsValid := fun n => if n = 0 then some (Err.ext 1) else none
  Operations := fun t => t
  opSealIsValid := fun _ => none
  sealIsValid := fun _ => none
  isSignatureVerificationFailed := fun err => decide (err = Err.ext 2)
  SetOperations := fun ops => ops
  DecodeByHint := fun r => Except.ok (some r)
  buildSealHal := fun _ => Except.ok ()

/-- A `send` that accepts whatever it is given. -/
def demoSend (_ : SendItem Nat (List Nat) Nat) : Except Err Unit := Except.ok ()

/-- A state pool environment for the policy update in which a state is the
currency design it holds. -/
def demoPolicyExt : PolicyExt GoBytes Nat (CurrencyDesign GoBytes Nat) where
  StateKeyCurrencyDesign := fun cid => 1 :: cid
  StateCurrencyDesignValue := fun st => Except.ok st
  SetStateCurrencyDesignValue := fun _ cd => Except.ok cd

/-- The design of currency `[7]` before the update: 33 units, genesis account
`[5]`, policy 0. -/
def demoPolicyDesign : CurrencyDesign GoBytes Nat :=
  { amount := { big := 33, cid := [7] }, genesisAccount := [5], policy := 0 }

/-- A view of a pool that holds the design of currency `[7]` and nothing
else. -/
def demoPolicyGetState (key : GoBytes) : Except Err (CurrencyDesign GoBytes Nat × Bool) :=
  Except.ok (demoPolicyDesign, decide (key = [1, 7]))

/-- A processor configured with three validators, all of which must sign. -/
def demoPolicyProcessor : CurrencyPolicyUpdaterProcessor GoBytes :=
  { pubs := [[1], [2], [3]], threshold := 3 }

/-- An update of the policy of currency `[7]` to 1, signed by the listed
keys. -/
def demoPolicyUpdate (signers : List GoBytes) : CurrencyPolicyUpdater GoBytes GoBytes Nat :=
  { fact := { h := [8, 8], token := [], cid := [7], policy := 1 },
    fs := signers.map demoSign }

/-- An unvalidated key set of eleven keys in descending order of public key,
each of weight 1, with the threshold 1. -/
def demoElevenKeys : Keys GoBytes GoBytes :=
  { h := [], keys := (List.range 11).reverse.map (fun i => { k := [i], w := 1 }),
    threshold := 1 }

/-! # Theorems -/

/-! ## Order facts about bytes.Compare -/

theorem bytesCompare_swap (a b : GoBytes) : bytesCompare b a = - bytesCompare a b := by
  induction a generalizing b with
  | nil => cases b <;> simp [bytesCompare]
  | cons x xs ih =>
    cases b with
    | nil => simp [bytesCompare]
    | cons y ys =>
      simp only [bytesCompare]
      by_cases h1 : x < y
      · have h2 : ¬ y < x := by omega
        simp [h1, h2]
      · by_cases h2 : y < x
        · simp [h1, h2]
        · simp [h1, h2, ih ys]

theorem bytesCompare_eq_zero (a b : GoBytes) (h : bytesCompare a b = 0) : a = b := by
  induction a generalizing b with
  | nil => cases b <;> simp_all [bytesCompare]
  | cons x xs ih =>
    cases b with
    | nil => simp [bytesCompare] at h
    | cons y ys =>
      simp only [bytesCompare] at h
      by_cases h1 : x < y
      · simp [h1] at h
      · by_cases h2 : y < x
        · simp [h1, h2] at h
        · simp only [h1, h2, if_false] at h
          have : x = y := by omega
          rw [this, ih ys h]

theorem bytesCompare_nonneg_trans (a b c : GoBytes)
    (h1 : 0 ≤ bytesCompare a b) (h2 : 0 ≤ bytesCompare b c) : 0 ≤ bytesCompare a c := by
  induction a generalizing b c with
  | nil =>
    cases b with
    | nil => exact h2
    | cons y ys => simp [bytesCompare] at h1
  | cons x xs ih =>
    cases b with
    | nil =>
      cases c with
      | nil => simp [bytesCompare]
      | cons z zs => simp [bytesCompare] at h2
    | cons y ys =>
      cases c with
      | nil => simp [bytesCompare]
      | cons z zs =>
        simp only [bytesCompare] at h1 h2 ⊢
        by_cases hxy : x < y
        · simp [hxy] at h1
        · by_cases hyz : y < z
          · simp [hyz] at h2
          · by_cases hyx : y < x
            · have hxz : ¬ x < z := by omega
              have hzx : z < x := by omega
              simp [hxz, hzx]
            · have e : x = y := by omega
              subst e
              by_cases hzx : z < x
              · simp [hyz, hzx]
              · simp only [hxy, hyz, hzx, if_false] at h1 h2 ⊢
                exact ih ys zs h1 h2

/-! ## Facts about the insertion sort of sort.Slice -/

section SortFacts

variable {α : Type} (less : α → α → Bool)

theorem insertLeftward_perm (x : α) (l : List α) :
    (insertLeftward less x l).Perm (x :: l) := by
  induction l with
  | nil => simp [insertLeftward]
  | cons y ys ih =>
    simp only [insertLeftward]
    split
    · exact (List.Perm.cons y ih).trans (List.Perm.swap x y ys)
    · exact List.Perm.refl _

theorem foldl_insertLeftward_perm (s acc : List α) :
    (s.foldl (fun done x => insertLeftward less x done) acc).Perm (s ++ acc) := by
  induction s generalizing acc with
  | nil => simp
  | cons x t ih =>
    simp only [List.foldl_cons]
    refine (ih _).trans ?_
    refine (List.Perm.append_left t (insertLeftward_perm less x acc)).trans ?_
    exact List.perm_middle

theorem sortSlice_perm (s : List α) : (sortSlice less s).Perm s := by
  unfold sortSlice
  refine (List.reverse_perm _).trans ?_
  simpa using foldl_insertLeftward_perm less s []

theorem insertLeftward_ordered
    (hasymm : ∀ a b, less a b = true → less b a = false)
    (htrans : ∀ a b c, less a b = false → less b c = false → less a c = false)
    (x : α) (l : List α) (hl : l.Pairwise (fun a b => less a b = false)) :
    (insertLeftward less x l).Pairwise (fun a b => less a b = false) := by
  induction l with
  | nil => simp [insertLeftward]
  | cons y ys ih =>
    rw [List.pairwise_cons] at hl
    simp only [insertLeftward]
    split
    · rename_i hxy
      rw [List.pairwise_cons]
      refine ⟨?_, ih hl.2⟩
      intro z hz
      rcases List.mem_cons.1 ((List.Perm.mem_iff (insertLeftward_perm less x ys)).1 hz) with
        rfl | hz
      · exact hasymm _ _ hxy
      · exact hl.1 z hz
    · rename_i hxy
      rw [List.pairwise_cons]
      refine ⟨?_, List.pairwise_cons.2 hl⟩
      intro z hz
      have hxy' : less x y = false := by simpa using hxy
      rcases List.mem_cons.1 hz with rfl | hz
      · exact hxy'
      · exact htrans x y z hxy' (hl.1 z hz)

theorem sortSlice_ordered
    (hasymm : ∀ a b, less a b = true → less b a = false)
    (htrans : ∀ a b c, less a b = false → less b c = false → less a c = false)
    (s : List α) : (sortSlice less s).Pairwise (fun a b => less b a = false) := by
  unfold sortSlice
  rw [List.pairwise_reverse]
  suffices h : ∀ acc : List α, acc.Pairwise (fun a b => less a b = false) →
      (s.foldl (fun done x => insertLeftward less x done) acc).Pairwise
        (fun a b => less a b = false) from h [] List.Pairwise.nil
  induction s with
  | nil => intro acc h; simpa using h
  | cons x t ih =>
    intro acc h
    simp only [List.foldl_cons]
    exact ih _ (insertLeftward_ordered less hasymm htrans x acc h)

theorem sortSlice_of_ordered (s : List α)
    (hs : s.Pairwise (fun a b => less b a = false)) : sortSlice less s = s := by
  unfold sortSlice
  suffices h : ∀ (t acc : List α), t.Pairwise (fun a b => less b a = false) →
      (∀ x ∈ t, ∀ y ∈ acc, less x y = false) →
      t.foldl (fun done x => insertLeftward less x done) acc = t.reverse ++ acc by
    rw [h s [] hs (by simp)]
    simp
  intro t
  induction t with
  | nil => intro acc _ _; simp
  | cons x t ih =>
    intro acc hp hacc
    rw [List.pairwise_cons] at hp
    have hins : insertLeftward less x acc = x :: acc := by
      cases acc with
      | nil => rfl
      | cons y ys =>
        have : less x y = false := hacc x (by simp) y (by simp)
        simp [insertLeftward, this]
    simp only [List.foldl_cons, hins]
    rw [ih (x :: acc) hp.2]
    · simp
    · intro z hz y hy
      rcases List.mem_cons.1 hy with rfl | hy
      · exact hp.1 z hz
      · exact hacc z (by simp [hz]) y hy

end SortFacts

/-! ## Facts about sorted keys, the weight sum and the key loop -/

section KeysFacts

variable {PK H : Type} (X : Ext PK H)

theorem keyLess_asymm (a b : Key PK) (h : keyLess X a b = true) : keyLess X b a = false := by
  simp only [keyLess, decide_eq_true_eq, decide_eq_false_iff_not] at h ⊢
  rw [bytesCompare_swap (X.pkBytes a.k) (X.pkBytes b.k)]
  omega

theorem keyLess_trans (a b c : Key PK) (h1 : keyLess X a b = false)
    (h2 : keyLess X b c = false) : keyLess X a c = false := by
  simp only [keyLess, decide_eq_false_iff_not, not_lt] at h1 h2 ⊢
  exact bytesCompare_nonneg_trans _ _ _ h1 h2

theorem sortKeys_perm (keys : List (Key PK)) : (sortKeys X keys).Perm keys :=
  sortSlice_perm _ keys

theorem sortKeys_ordered (keys : List (Key PK)) :
    (sortKeys X keys).Pairwise (fun a b => keyLess X b a = false) :=
  sortSlice_ordered _ (keyLess_asymm X) (keyLess_trans X) keys

theorem sortKeys_idem (keys : List (Key PK)) :
    sortKeys X (sortKeys X keys) = sortKeys X keys :=
  sortSlice_of_ordered _ _ (sortKeys_ordered X keys)

theorem keysBytes_sortKeys (keys : List (Key PK)) (threshold : Nat) :
    keysBytes X (sortKeys X keys) threshold = keysBytes X keys threshold := by
  simp only [keysBytes, sortKeys_idem]

theorem sortKeys_eq_of_perm (keys keys2 : List (Key PK)) (hp : keys.Perm keys2)
    (hd : (keys.map (fun ky => X.pkBytes ky.k)).Nodup) :
    sortKeys X keys = sortKeys X keys2 := by
  have strict : ∀ l : List (Key PK), l.Perm keys →
      (sortKeys X l).Pairwise (fun a b => keyLess X a b = true) := by
    intro l hl
    have hnd : ((sortKeys X l).map (fun ky => X.pkBytes ky.k)).Nodup :=
      (((sortKeys_perm X l).trans hl).map _).nodup_iff.2 hd
    rw [List.Nodup, List.pairwise_map] at hnd
    refine (List.Pairwise.and (sortKeys_ordered X l) hnd).imp ?_
    intro a b hab
    obtain ⟨h1, h2⟩ := hab
    simp only [keyLess, decide_eq_true_eq, decide_eq_false_iff_not, not_lt] at h1 ⊢
    rw [bytesCompare_swap (X.pkBytes a.k) (X.pkBytes b.k)] at h1
    have h3 : bytesCompare (X.pkBytes a.k) (X.pkBytes b.k) ≠ 0 :=
      fun h0 => h2 (bytesCompare_eq_zero _ _ h0)
    omega
  haveI : IsAntisymm (Key PK) (fun a b => keyLess X a b = true) :=
    ⟨fun a b hab hba => by rw [keyLess_asymm X a b hab] at hba; cases hba⟩
  exact List.eq_of_perm_of_sorted
    (((sortKeys_perm X keys).trans hp).trans (sortKeys_perm X keys2).symm)
    (strict keys (List.Perm.refl _)) (strict keys2 hp.symm)

theorem totalWeight_eq (keys : List (Key PK)) :
    totalWeight keys = (keys.map Key.Weight).sum % UintMod := by
  unfold totalWeight
  suffices h : ∀ acc : Nat, acc < UintMod →
      keys.foldl (fun acc ky => (acc + ky.Weight) % UintMod) acc
        = (acc + (keys.map Key.Weight).sum) % UintMod by
    simpa using h 0 (by decide)
  induction keys with
  | nil => intro acc h; simp [Nat.mod_eq_of_lt h]
  | cons ky t ih =>
    intro acc _
    simp only [List.foldl_cons, List.map_cons, List.sum_cons]
    rw [ih _ (Nat.mod_lt _ (by decide)), Nat.mod_add_mod, Nat.add_assoc]

theorem checkEachKey_none_iff (keys : List (Key PK)) (m : List GoBytes) :
    checkEachKey X keys m = none ↔
      (∀ ky ∈ keys, ky.IsValid X = none) ∧
      (keys.map (fun ky => X.pkString ky.k)).Nodup ∧
      (∀ ky ∈ keys, X.pkString ky.k ∉ m) := by
  induction keys generalizing m with
  | nil => simp [checkEachKey]
  | cons ky t ih =>
    simp only [checkEachKey]
    cases hv : ky.IsValid X with
    | some e => simp [hv]
    | none =>
      by_cases hm : X.pkString ky.k ∈ m
      · simp [hm]
      · simp only [hm, if_false, ih, List.mem_cons, List.map_cons, List.nodup_cons,
          List.mem_map, not_exists, not_and, not_or]
        constructor
        · rintro ⟨h1, h2, h3⟩
          refine ⟨?_, ⟨?_, h2⟩, ?_⟩
          · rintro k (rfl | hk)
            · exact hv
            · exact h1 k hk
          · intro k hk e
            exact (h3 k hk).1 e
          · rintro k (rfl | hk)
            · exact hm
            · exact (h3 k hk).2
        · rintro ⟨h1, ⟨h2, h3⟩, h4⟩
          refine ⟨fun k hk => h1 k (Or.inr hk), h3, fun k hk => ⟨fun e => h2 k hk e, h4 k (Or.inr hk)⟩⟩

theorem key_isValid_none_iff (ky : Key PK) :
    ky.IsValid X = none ↔ (1 ≤ ky.w ∧ ky.w ≤ 100 ∧ X.pkIsValid ky.k = none) := by
  unfold Key.IsValid
  by_cases h : ky.w < 1 ∨ ky.w > 100
  · simp only [h, if_true]
    constructor
    · intro h; cases h
    · intro h2; omega
  · simp only [h, if_false]
    have : 1 ≤ ky.w ∧ ky.w ≤ 100 := by omega
    cases hv : X.pkIsValid ky.k <;> simp [this]

end KeysFacts

/-! ## Claims about Key and Keys -/

section KeysClaims

variable {PK H : Type}

/-- C6: `NewKey(k, w)` returns no error exactly when `1 <= w <= 100` and `k`
passes its own validation; a weight outside `[1,100]` gives the invalid-weight
error whatever the public key is, and with a weight in range the error is the
one of the public key's validation. The key itself is returned in every case. -/
theorem newKey_error_iff (X : Ext PK H) (k : PK) (w : Nat) :
    ((NewKey X k w).2 = none ↔ (1 ≤ w ∧ w ≤ 100 ∧ X.pkIsValid k = none)) ∧
    (NewKey X k w).2
      = (if w < 1 ∨ 100 < w then some Err.invalidKeyWeight else X.pkIsValid k) ∧
    (NewKey X k w).1 = { k := k, w := w } := by
  refine ⟨key_isValid_none_iff X _, ?_, rfl⟩
  show Key.IsValid X { k := k, w := w } = _
  unfold Key.IsValid
  by_cases h : w < 1 ∨ 100 < w
  · rw [if_pos h, if_pos h]
  · rw [if_neg h, if_neg h]
    cases X.pkIsValid k <;> rfl

/-- C9: `Keys.IsValid` is a tamper check. A `Keys` value whose stored hash is
not `Equal` to the hash generated from its own `Bytes()` is rejected with an
error, and a value that `IsValid` accepts has a stored hash `Equal` to the
regenerated one. -/
theorem keys_isValid_checks_hash (X : Ext PK H) (ks : Keys PK H) :
    (X.hashEqual ks.h (ks.GenerateHash X) = false → ∃ err, ks.IsValid X = some err) ∧
    (ks.IsValid X = none → X.hashEqual ks.h (ks.GenerateHash X) = true) := by
  have key : ks.IsValid X = none → X.hashEqual ks.h (ks.GenerateHash X) = true := by
    unfold Keys.IsValid
    intro h
    split at h
    · cases h
    · split at h
      · cases h
      · split at h
        · cases h
        · split at h
          · cases h
          · split at h
            · cases h
            · split at h
              · cases h
              · split at h
                · cases h
                · rename_i hne
                  simpa using hne
  refine ⟨?_, key⟩
  intro hne
  cases hv : ks.IsValid X with
  | some err => exact ⟨err, rfl⟩
  | none => rw [key hv] at hne; cases hne

/-- Witness for C9 on a value altered after hashing: the threshold of a valid
key set is lowered, the stored hash no longer matches and `IsValid` answers
"hash not matched". -/
theorem keys_isValid_checks_hash_witness :
    demoExt.hashEqual demoTamperedKeys.h (demoTamperedKeys.GenerateHash demoExt) = false ∧
    demoKeys.IsValid demoExt = none ∧
    demoTamperedKeys.IsValid demoExt = some Err.hashNotMatched ∧
    ∃ err, demoTamperedKeys.IsValid demoExt = some err :=
  ⟨by decide, by decide, by decide,
    (keys_isValid_checks_hash demoExt demoTamperedKeys).1 (by decide)⟩

end KeysClaims


section KeysClaims2

variable {PK H : Type}

theorem checkEachKey_sortKeys_none_iff (X : Ext PK H) (keys : List (Key PK)) :
    checkEachKey X (sortKeys X keys) [] = none ↔
      (∀ ky ∈ keys, 1 ≤ ky.w ∧ ky.w ≤ 100 ∧ X.pkIsValid ky.k = none) ∧
      (keys.map (fun ky => X.pkString ky.k)).Nodup := by
  have hp := sortKeys_perm X keys
  rw [checkEachKey_none_iff, (hp.map (fun ky => X.pkString ky.k)).nodup_iff]
  constructor
  · rintro ⟨h1, h2, _⟩
    exact ⟨fun ky hk => (key_isValid_none_iff X ky).1 (h1 ky (hp.mem_iff.2 hk)), h2⟩
  · rintro ⟨h1, h2⟩
    exact ⟨fun ky hk => (key_isValid_none_iff X ky).2 (h1 ky (hp.mem_iff.1 hk)), h2,
      fun _ _ => List.not_mem_nil _⟩

theorem weight_sum_le (keys : List (Key PK)) (h : ∀ ky ∈ keys, ky.w ≤ 100) :
    (keys.map Key.Weight).sum ≤ 100 * keys.length := by
  induction keys with
  | nil => simp
  | cons ky t ih =>
    have h1 : ky.w ≤ 100 := h ky (by simp)
    have h2 := ih (fun k hk => h k (by simp [hk]))
    simp only [List.map_cons, List.sum_cons, List.length_cons, Key.Weight] at h2 ⊢
    omega

/-- C1: `NewKeys(keys, threshold)` returns no error exactly when the list has
between 1 and 10 keys, every key has a weight in `[1,100]` and a public key
that passes its own validation, the threshold is in `[1,100]`, no two keys
have the same public key (the same `String()`, which is what the code
compares) and the weights sum to at least the threshold. The hash library is
taken to accept the hashes it produces and to find a hash `Equal` to itself. -/
theorem newKeys_ok_iff (X : Ext PK H)
    (hvalid : ∀ b, X.hashIsValid (X.NewSHA256 b) = none)
    (hrefl : ∀ h, X.hashEqual h h = true)
    (keys : List (Key PK)) (threshold : Nat) :
    (NewKeys X keys threshold).2 = none ↔
      (1 ≤ keys.length ∧ keys.length ≤ 10) ∧
      (∀ ky ∈ keys, 1 ≤ ky.w ∧ ky.w ≤ 100 ∧ X.pkIsValid ky.k = none) ∧
      (1 ≤ threshold ∧ threshold ≤ 100) ∧
      (keys.map (fun ky => X.pkString ky.k)).Nodup ∧
      threshold ≤ (keys.map Key.Weight).sum := by
  have hp := sortKeys_perm X keys
  have hlen : (sortKeys X keys).length = keys.length := hp.length_eq
  have hsum : ((sortKeys X keys).map Key.Weight).sum = (keys.map Key.Weight).sum :=
    (hp.map Key.Weight).sum_eq
  have hkeys := checkEachKey_sortKeys_none_iff X keys
  show Keys.IsValid X ⟨X.NewSHA256 (keysBytes X keys threshold), sortKeys X keys, threshold⟩
    = none ↔ _
  unfold Keys.IsValid
  simp only [hvalid, hlen, Keys.GenerateHash, Keys.Bytes, keysBytes_sortKeys, hrefl,
    totalWeight_eq, hsum, MaxKeyInKeys]
  by_cases hth : threshold < 1 ∨ threshold > 100
  · rw [if_pos hth]
    constructor
    · intro h; cases h
    · intro h; omega
  rw [if_neg hth]
  by_cases hl1 : keys.length < 1
  · rw [if_pos hl1]
    constructor
    · intro h; cases h
    · intro h; omega
  rw [if_neg hl1]
  by_cases hl2 : keys.length > 10
  · rw [if_pos hl2]
    constructor
    · intro h; cases h
    · intro h; omega
  rw [if_neg hl2]
  cases hc : checkEachKey X (sortKeys X keys) [] with
  | some err =>
    simp only
    constructor
    · intro h; cases h
    · intro h
      have := hkeys.2 ⟨h.2.1, h.2.2.2.1⟩
      rw [hc] at this
      cases this
  | none =>
    simp only
    obtain ⟨hk1, hk2⟩ := hkeys.1 hc
    have hbound : (keys.map Key.Weight).sum < UintMod := by
      have := weight_sum_le keys (fun ky hk => (hk1 ky hk).2.1)
      have : (keys.map Key.Weight).sum ≤ 1000 := by omega
      exact lt_of_le_of_lt this (by decide)
    rw [Nat.mod_eq_of_lt hbound]
    by_cases hw : (keys.map Key.Weight).sum < threshold
    · rw [if_pos hw]
      constructor
      · intro h; cases h
      · intro h; omega
    · rw [if_neg hw]
      simp only [Bool.not_true, Bool.false_eq_true, if_false, true_iff]
      exact ⟨by omega, hk1, by omega, hk2, by omega⟩

/-- Witness for C1: two keys of weight 50 and threshold 100 are accepted. -/
theorem newKeys_ok_iff_witness :
    (∀ b, demoExt.hashIsValid (demoExt.NewSHA256 b) = none) ∧
    (∀ h, demoExt.hashEqual h h = true) ∧
    (NewKeys demoExt [demoKeyB, demoKeyA] 100).2 = none :=
  ⟨fun _ => rfl, fun h => by simp [demoExt],
    (newKeys_ok_iff demoExt (fun _ => rfl) (fun h => by simp [demoExt])
      [demoKeyB, demoKeyA] 100).2 (by decide)⟩

/-- C8: `Key.Bytes()` is the bytes of the public key's string form followed by
the `util.UintToBytes` encoding of the weight; `Keys.Bytes()` is the
concatenation of `Key.Bytes()` of the keys, rearranged in ascending order of
raw public-key bytes, followed by the encoding of the threshold; and the hash
stored by `NewKeys` is SHA-256 of `Keys.Bytes()` (of the key list as given, and
equally of the returned value). -/
theorem bytes_layout (X : Ext PK H) (ky : Key PK) (ks : Keys PK H)
    (keys : List (Key PK)) (threshold : Nat) (h0 : H) :
    Key.Bytes X ky = X.pkString ky.k ++ X.UintToBytes ky.w ∧
    ((sortKeys X ks.keys).Perm ks.keys ∧ ascendingByKeyBytes X (sortKeys X ks.keys) ∧
      Keys.Bytes X ks
        = ((sortKeys X ks.keys).map (Key.Bytes X)).flatten ++ X.UintToBytes ks.threshold) ∧
    ((NewKeys X keys threshold).1.h
        = X.NewSHA256 (Keys.Bytes X { h := h0, keys := keys, threshold := threshold }) ∧
      (NewKeys X keys threshold).1.h
        = X.NewSHA256 (Keys.Bytes X (NewKeys X keys threshold).1)) := by
  refine ⟨by simp [Key.Bytes, ConcatBytesSlice], ⟨sortKeys_perm X _, ?_, ?_⟩, rfl, ?_⟩
  · refine (sortKeys_ordered X ks.keys).imp ?_
    intro a b hab
    simp only [keyLess, decide_eq_false_iff_not, not_lt] at hab
    rw [bytesCompare_swap (X.pkBytes b.k) (X.pkBytes a.k)]
    omega
  · simp [Keys.Bytes, keysBytes, ConcatBytesSlice]
  · simp [NewKeys, Keys.Bytes, keysBytes_sortKeys]

/-- C7, as amended: `Keys.Bytes()` is invariant under permutation of a key list
whose public keys have pairwise different raw bytes: for every such list, every
permutation of it and every threshold, the two `Keys` values have the same
`Bytes()`, the same generated hash, and `NewKeys` stores the same hash. -/
theorem keys_bytes_perm_invariant (X : Ext PK H) (keys keys2 : List (Key PK))
    (hp : keys.Perm keys2)
    (hd : (keys.map (fun ky => X.pkBytes ky.k)).Nodup)
    (threshold : Nat) (h1 h2 : H) :
    Keys.Bytes X { h := h1, keys := keys, threshold := threshold }
      = Keys.Bytes X { h := h2, keys := keys2, threshold := threshold } ∧
    Keys.GenerateHash X { h := h1, keys := keys, threshold := threshold }
      = Keys.GenerateHash X { h := h2, keys := keys2, threshold := threshold } ∧
    (NewKeys X keys threshold).1.h = (NewKeys X keys2 threshold).1.h := by
  have e : keysBytes X keys threshold = keysBytes X keys2 threshold := by
    simp only [keysBytes, sortKeys_eq_of_perm X keys keys2 hp hd]
  exact ⟨e, congrArg X.NewSHA256 e, congrArg X.NewSHA256 e⟩

/-- Witness for C7 as amended: the two orders of two different keys. -/
theorem keys_bytes_perm_invariant_witness :
    [demoKeyB, demoKeyA].Perm [demoKeyA, demoKeyB] ∧
    ([demoKeyB, demoKeyA].map (fun ky => demoExt.pkBytes ky.k)).Nodup ∧
    Keys.Bytes demoExt { h := [], keys := [demoKeyB, demoKeyA], threshold := 100 }
      = Keys.Bytes demoExt { h := [], keys := [demoKeyA, demoKeyB], threshold := 100 } :=
  ⟨List.Perm.swap _ _ _, by decide,
    (keys_bytes_perm_invariant demoExt [demoKeyB, demoKeyA] [demoKeyA, demoKeyB]
      (List.Perm.swap _ _ _) (by decide) 100 [] []).1⟩

/-- Counterexample to C7 as stated: two keys with the same public key and the
weights 1 and 2. Neither is less than the other, so `sort.Slice` leaves either
order as it is, and the two orders of the list give different `Bytes()`. -/
theorem keys_bytes_perm_counterexample :
    ([{ k := [1], w := 1 }, { k := [1], w := 2 }] : List (Key GoBytes)).Perm
      [{ k := [1], w := 2 }, { k := [1], w := 1 }] ∧
    Keys.Bytes demoExt (⟨[], [{ k := [1], w := 1 }, { k := [1], w := 2 }], 1⟩ :
        Keys GoBytes GoBytes)
      ≠ Keys.Bytes demoExt (⟨[], [{ k := [1], w := 2 }, { k := [1], w := 1 }], 1⟩ :
        Keys GoBytes GoBytes) :=
  ⟨List.Perm.swap _ _ _, by decide⟩

end KeysClaims2

/-! ## Claims about checkThreshold -/

section ThresholdFacts

variable {PK H : Type} (X : Ext PK H)

theorem checkThresholdLoop_known (keys : Keys PK H) (fs : List (FactSign PK)) (sum : Nat)
    (hs : sum < UintMod) (hk : allSignersKnown X fs keys) :
    checkThresholdLoop X keys fs sum
      = Except.ok ((sum + listedWeight X fs keys) % UintMod) := by
  induction fs generalizing sum with
  | nil => simp [checkThresholdLoop, listedWeight, Nat.mod_eq_of_lt hs]
  | cons f t ih =>
    have hf : (keys.Key X f.signer).isSome = true := hk f (by simp)
    have ht : allSignersKnown X t keys := fun g hg => hk g (by simp [hg])
    obtain ⟨ky, hky⟩ := Option.isSome_iff_exists.1 hf
    simp only [checkThresholdLoop, hky]
    rw [ih _ (Nat.mod_lt _ (by decide)) ht]
    simp only [listedWeight, List.map_cons, List.sum_cons, signerWeight, hky]
    rw [Nat.mod_add_mod, Nat.add_assoc]

theorem checkThresholdLoop_unknown (keys : Keys PK H) (fs : List (FactSign PK)) (sum : Nat)
    (hk : ¬ allSignersKnown X fs keys) :
    ∃ f ∈ fs, keys.Key X f.signer = none ∧
      checkThresholdLoop X keys fs sum = Except.error (Err.unknownKey (X.pkString f.signer)) := by
  induction fs generalizing sum with
  | nil => exact absurd (fun f hf => absurd hf (List.not_mem_nil f)) hk
  | cons f t ih =>
    cases hky : keys.Key X f.signer with
    | none => exact ⟨f, by simp, hky, by simp [checkThresholdLoop, hky]⟩
    | some ky =>
      have ht : ¬ allSignersKnown X t keys := by
        intro ht
        apply hk
        intro g hg
        rcases List.mem_cons.1 hg with rfl | hg
        · simp [hky]
        · exact ht g hg
      obtain ⟨g, hg, h1, h2⟩ := ih ((sum + ky.Weight) % UintMod) ht
      exact ⟨g, by simp [hg], h1, by simp only [checkThresholdLoop, hky, h2]⟩

theorem checkThreshold_known (keys : Keys PK H) (fs : List (FactSign PK))
    (hk : allSignersKnown X fs keys) :
    checkThreshold X fs keys
      = if listedWeight X fs keys % UintMod < keys.Threshold then
          some (Err.notPassedThreshold (listedWeight X fs keys % UintMod) keys.Threshold)
        else none := by
  unfold checkThreshold
  rw [checkThresholdLoop_known X keys fs 0 (by decide) hk]
  simp

theorem checkThreshold_unknown (keys : Keys PK H) (fs : List (FactSign PK))
    (hk : ¬ allSignersKnown X fs keys) :
    ∃ f ∈ fs, keys.Key X f.signer = none ∧
      checkThreshold X fs keys = some (Err.unknownKey (X.pkString f.signer)) := by
  obtain ⟨f, hf, h1, h2⟩ := checkThresholdLoop_unknown X keys fs 0 hk
  exact ⟨f, hf, h1, by simp only [checkThreshold, h2]⟩

theorem checkThreshold_none_iff (keys : Keys PK H) (fs : List (FactSign PK)) :
    checkThreshold X fs keys = none ↔
      allSignersKnown X fs keys ∧ keys.Threshold ≤ listedWeight X fs keys % UintMod := by
  by_cases hk : allSignersKnown X fs keys
  · rw [checkThreshold_known X keys fs hk]
    by_cases hlt : listedWeight X fs keys % UintMod < keys.Threshold
    · rw [if_pos hlt]
      constructor
      · intro h; cases h
      · intro h; omega
    · rw [if_neg hlt]
      exact ⟨fun _ => ⟨hk, by omega⟩, fun _ => rfl⟩
  · obtain ⟨f, _, _, h2⟩ := checkThreshold_unknown X keys fs hk
    rw [h2]
    constructor
    · intro h; cases h
    · intro h; exact absurd h.1 hk

theorem allSignersKnown_perm (keys : Keys PK H) (fs fs2 : List (FactSign PK))
    (hp : fs.Perm fs2) : allSignersKnown X fs keys ↔ allSignersKnown X fs2 keys :=
  ⟨fun h f hf => h f (hp.mem_iff.2 hf), fun h f hf => h f (hp.mem_iff.1 hf)⟩

theorem listedWeight_perm (keys : Keys PK H) (fs fs2 : List (FactSign PK))
    (hp : fs.Perm fs2) : listedWeight X fs keys = listedWeight X fs2 keys :=
  (hp.map _).sum_eq

end ThresholdFacts

section ThresholdClaims

variable {PK H : Type}

/-- C2, as amended: `checkThreshold(fs, keys)` returns no error exactly when
every signer in `fs` is found in `keys` and the sum, over the entries of `fs`,
of the weight of the signer's key, reduced modulo 2^64 as the `uint` addition
of the code does, is at least `keys.Threshold()`; whenever that sum is below
2^64 the reduction changes nothing; and the unknown-key error, naming a signer
that is absent from `keys`, is returned whenever at least one signer of `fs`
is absent, whatever the weights of the other signers are. -/
theorem checkThreshold_ok_iff (X : Ext PK H) (fs : List (FactSign PK)) (keys : Keys PK H) :
    (checkThreshold X fs keys = none ↔
      allSignersKnown X fs keys ∧ keys.Threshold ≤ listedWeight X fs keys % UintMod) ∧
    (listedWeight X fs keys < UintMod →
      (checkThreshold X fs keys = none ↔
        allSignersKnown X fs keys ∧ keys.Threshold ≤ listedWeight X fs keys)) ∧
    ((∃ f ∈ fs, keys.Key X f.signer = none) →
      ∃ f ∈ fs, keys.Key X f.signer = none ∧
        checkThreshold X fs keys = some (Err.unknownKey (X.pkString f.signer))) := by
  refine ⟨checkThreshold_none_iff X keys fs, ?_, ?_⟩
  · intro hlt
    rw [checkThreshold_none_iff, Nat.mod_eq_of_lt hlt]
  · rintro ⟨f, hf, hnone⟩
    apply checkThreshold_unknown
    intro hk
    have := hk f hf
    rw [hnone] at this
    cases this

/-- Witness for C2 as amended: both keys of the demo set sign (accepted), and a
list with a stranger among the signers (unknown-key error). -/
theorem checkThreshold_ok_iff_witness :
    (listedWeight demoExt [demoSign [1], demoSign [2]] demoKeys < UintMod ∧
      (checkThreshold demoExt [demoSign [1], demoSign [2]] demoKeys = none ↔
        allSignersKnown demoExt [demoSign [1], demoSign [2]] demoKeys ∧
          demoKeys.Threshold ≤ listedWeight demoExt [demoSign [1], demoSign [2]] demoKeys)) ∧
    ((∃ f ∈ [demoSign [1], demoSign [3], demoSign [2]], demoKeys.Key demoExt f.signer = none) ∧
      ∃ f ∈ [demoSign [1], demoSign [3], demoSign [2]],
        demoKeys.Key demoExt f.signer = none ∧
        checkThreshold demoExt [demoSign [1], demoSign [3], demoSign [2]] demoKeys
          = some (Err.unknownKey (demoExt.pkString f.signer))) :=
  ⟨⟨by decide,
    (checkThreshold_ok_iff demoExt [demoSign [1], demoSign [2]] demoKeys).2.1 (by decide)⟩,
   ⟨⟨demoSign [3], by decide, by decide⟩,
    (checkThreshold_ok_iff demoExt [demoSign [1], demoSign [3], demoSign [2]] demoKeys).2.2
      ⟨demoSign [3], by decide, by decide⟩⟩⟩

/-- Counterexample to C2 as stated: a key set holding one key of weight 2^63
with threshold 1, and that key signing twice. Every signer is found and the
weights sum to 2^64, which is at least the threshold, but the `uint` sum wraps
to 0 and `checkThreshold` answers "not passed threshold". -/
theorem checkThreshold_ok_iff_counterexample :
    ¬ (checkThreshold demoExt [demoSign [1], demoSign [1]] demoHeavyKeys = none ↔
        ((∀ f ∈ [demoSign [1], demoSign [1]],
            (demoHeavyKeys.Key demoExt f.signer).isSome = true) ∧
          demoHeavyKeys.Threshold
            ≤ listedWeight demoExt [demoSign [1], demoSign [1]] demoHeavyKeys)) ∧
    checkThreshold demoExt [demoSign [1], demoSign [1]] demoHeavyKeys
      = some (Err.notPassedThreshold 0 1) :=
  ⟨by decide, by decide⟩

/-- C10: `checkThreshold` has no ordering dependency among signatures. For a
permutation of the signature list it accepts exactly when it accepts the
original, it answers with the unknown-key error exactly when it does so for the
original, and it answers "not passed threshold" exactly when it does so for the
original (then with the same sum and threshold). -/
theorem checkThreshold_perm (X : Ext PK H) (keys : Keys PK H) (fs fs2 : List (FactSign PK))
    (hp : fs.Perm fs2) :
    (checkThreshold X fs keys = none ↔ checkThreshold X fs2 keys = none) ∧
    ((∃ s, checkThreshold X fs keys = some (Err.unknownKey s)) ↔
      (∃ s, checkThreshold X fs2 keys = some (Err.unknownKey s))) ∧
    (∀ sum th, checkThreshold X fs keys = some (Err.notPassedThreshold sum th) ↔
      checkThreshold X fs2 keys = some (Err.notPassedThreshold sum th)) := by
  by_cases hk : allSignersKnown X fs keys
  · have hk2 := (allSignersKnown_perm X keys fs fs2 hp).1 hk
    have e : checkThreshold X fs keys = checkThreshold X fs2 keys := by
      rw [checkThreshold_known X keys fs hk, checkThreshold_known X keys fs2 hk2,
        listedWeight_perm X keys fs fs2 hp]
    rw [e]
    exact ⟨Iff.rfl, Iff.rfl, fun _ _ => Iff.rfl⟩
  · have hk2 : ¬ allSignersKnown X fs2 keys :=
      fun h => hk ((allSignersKnown_perm X keys fs fs2 hp).2 h)
    obtain ⟨f, _, _, h1⟩ := checkThreshold_unknown X keys fs hk
    obtain ⟨g, _, _, h2⟩ := checkThreshold_unknown X keys fs2 hk2
    rw [h1, h2]
    refine ⟨?_, ?_, ?_⟩
    · constructor <;> intro h <;> cases h
    · exact ⟨fun _ => ⟨_, rfl⟩, fun _ => ⟨_, rfl⟩⟩
    · intro sum th
      constructor <;> intro h <;> cases h

/-- Witness for C10: two orders of a list with a stranger among the signers;
both are rejected with the unknown-key error. -/
theorem checkThreshold_perm_witness :
    [demoSign [1], demoSign [3]].Perm [demoSign [3], demoSign [1]] ∧
    ((∃ s, checkThreshold demoExt [demoSign [1], demoSign [3]] demoKeys
        = some (Err.unknownKey s)) ↔
      (∃ s, checkThreshold demoExt [demoSign [3], demoSign [1]] demoKeys
        = some (Err.unknownKey s))) :=
  ⟨List.Perm.swap _ _ _,
    (checkThreshold_perm demoExt demoKeys [demoSign [1], demoSign [3]]
      [demoSign [3], demoSign [1]] (List.Perm.swap _ _ _)).2.1⟩

end ThresholdClaims


section DistinctSigners

variable {PK H : Type} (X : Ext PK H)

theorem sum_filter_or (K : List (Key PK)) (p q : Key PK → Bool)
    (hdisj : ∀ ky ∈ K, ¬ (p ky = true ∧ q ky = true)) :
    ((K.filter (fun ky => p ky || q ky)).map Key.Weight).sum
      = ((K.filter p).map Key.Weight).sum + ((K.filter q).map Key.Weight).sum := by
  induction K with
  | nil => simp
  | cons ky t ih =>
    have iht := ih (fun k hk => hdisj k (by simp [hk]))
    have hky := hdisj ky (by simp)
    cases hp : p ky <;> cases hq : q ky
    · simp [List.filter_cons, hp, hq, iht]
    · simp [List.filter_cons, hp, hq, iht]
      omega
    · simp [List.filter_cons, hp, hq, iht]
      omega
    · exact absurd ⟨hp, hq⟩ hky

theorem find_weight_le_sum_filter (K : List (Key PK)) (p : Key PK → Bool) :
    (match K.find? p with
      | some ky => ky.Weight
      | none => 0) ≤ ((K.filter p).map Key.Weight).sum := by
  induction K with
  | nil => simp
  | cons ky t ih =>
    cases hp : p ky
    · simpa [List.find?_cons, List.filter_cons, hp] using ih
    · simp [List.find?_cons, List.filter_cons, hp]

theorem listedWeight_le_distinct (hlaw : ∀ a b, X.pkEqual a b = true ↔ a = b)
    (keys : Keys PK H) (fs : List (FactSign PK))
    (hnd : (fs.map FactSign.signer).Nodup) :
    listedWeight X fs keys ≤ distinctSignerWeight X fs keys := by
  induction fs with
  | nil => simp [listedWeight]
  | cons f t ih =>
    rw [List.map_cons, List.nodup_cons] at hnd
    have iht := ih hnd.2
    have hsplit : distinctSignerWeight X (f :: t) keys
        = ((keys.keys.filter (fun ky => X.pkEqual ky.k f.signer)).map Key.Weight).sum
          + distinctSignerWeight X t keys := by
      unfold distinctSignerWeight
      simp only [List.any_cons]
      apply sum_filter_or
      rintro ky _ ⟨h1, h2⟩
      rw [List.any_eq_true] at h2
      obtain ⟨g, hg, h3⟩ := h2
      have e1 := (hlaw _ _).1 h1
      have e2 := (hlaw _ _).1 h3
      exact hnd.1 (List.mem_map.2 ⟨g, hg, by rw [← e2, e1]⟩)
    have hfirst : signerWeight X keys f.signer
        ≤ ((keys.keys.filter (fun ky => X.pkEqual ky.k f.signer)).map Key.Weight).sum :=
      find_weight_le_sum_filter keys.keys _
    rw [hsplit]
    simp only [listedWeight, List.map_cons, List.sum_cons] at iht ⊢
    omega

end DistinctSigners

section ThresholdClaims2

variable {PK H : Type}

/-- C3, as amended: `checkThreshold` accepts only if the weights of the signers'
keys, counted once per entry of the signature list (a signer listed more than
once contributes its weight once per listing), sum to at least the threshold.
When `Equal` on public keys is equality and no signer is listed more than once,
this is the combined weight of the distinct keys of the set that appear as
signers. -/
theorem checkThreshold_accepts_only_if (X : Ext PK H) (fs : List (FactSign PK))
    (keys : Keys PK H) (hacc : checkThreshold X fs keys = none) :
    keys.Threshold ≤ listedWeight X fs keys ∧
    ((∀ a b, X.pkEqual a b = true ↔ a = b) → (fs.map FactSign.signer).Nodup →
      keys.Threshold ≤ distinctSignerWeight X fs keys) := by
  have h1 := ((checkThreshold_none_iff X keys fs).1 hacc).2
  have h2 : listedWeight X fs keys % UintMod ≤ listedWeight X fs keys := Nat.mod_le _ _
  refine ⟨by omega, ?_⟩
  intro hlaw hnd
  have := listedWeight_le_distinct X hlaw keys fs hnd
  omega

/-- Witness for C3 as amended: both keys of the demo set sign once. -/
theorem checkThreshold_accepts_only_if_witness :
    checkThreshold demoExt [demoSign [1], demoSign [2]] demoKeys = none ∧
    (∀ a b, demoExt.pkEqual a b = true ↔ a = b) ∧
    ([demoSign [1], demoSign [2]].map FactSign.signer).Nodup ∧
    demoKeys.Threshold ≤ distinctSignerWeight demoExt [demoSign [1], demoSign [2]] demoKeys :=
  ⟨by decide, fun a b => by simp [demoExt], by decide,
    (checkThreshold_accepts_only_if demoExt [demoSign [1], demoSign [2]] demoKeys
      (by decide)).2 (fun a b => by simp [demoExt]) (by decide)⟩

/-- Counterexample to C3 as stated: a valid key set of two keys of weight 50
with threshold 100, and a signature list naming the first key twice. The one
distinct signer weighs 50, below the threshold, yet the list is accepted:
the loop adds the weight once per entry. -/
theorem checkThreshold_repeated_signer_counterexample :
    demoKeys.IsValid demoExt = none ∧
    checkThreshold demoExt [demoSign [1], demoSign [1]] demoKeys = none ∧
    distinctSignerWeight demoExt [demoSign [1], demoSign [1]] demoKeys = 50 ∧
    ¬ (demoKeys.Threshold
        ≤ distinctSignerWeight demoExt [demoSign [1], demoSign [1]] demoKeys) :=
  ⟨by decide, by decide, by decide, by decide⟩

end ThresholdClaims2

/-! ## Facts about the loops of GenesisCurrencies.Process -/

section GenesisFacts

variable {PK H A P S Acc : Type} (G : GenesisExt PK H A P S Acc)

theorem notExistsState_ok_iff (key : GoBytes) (name : StateName)
    (getState : GoBytes → Except Err (S × Bool)) (st : S) :
    notExistsState key name getState = Except.ok st ↔ getState key = Except.ok (st, false) := by
  unfold notExistsState
  cases hg : getState key with
  | error err => simp
  | ok p =>
    obtain ⟨s, found⟩ := p
    cases found <;> simp

theorem notExistsState_error (key : GoBytes) (name : StateName)
    (getState : GoBytes → Except Err (S × Bool)) (err : Err)
    (h : notExistsState key name getState = Except.error err) :
    existsAt getState key ∨ lookupFails getState key := by
  unfold notExistsState at h
  cases hg : getState key with
  | error e => exact Or.inr ⟨e, hg⟩
  | ok p =>
    obtain ⟨s, found⟩ := p
    cases found
    · simp [hg] at h
    · exact Or.inl ⟨s, hg⟩

theorem stateMap_get_append (m rest : StateMap S) (nilState : S) (g : CurrencyID → S)
    (hm : ∀ p ∈ m, p.2 = g p.1) (cid : CurrencyID) (hk : cid ∈ m.map Prod.fst) :
    StateMap.get (m ++ rest) nilState cid = g cid := by
  unfold StateMap.get
  induction m with
  | nil => simp at hk
  | cons p t ih =>
    obtain ⟨k, v⟩ := p
    rw [List.cons_append, List.lookup_cons]
    by_cases hkc : cid = k
    · subst hkc
      have := hm (cid, v) (by simp)
      simpa using this
    · have hne : (cid == k) = false := by simpa using hkc
      rw [hne]
      simp only [List.map_cons, List.mem_cons] at hk
      rcases hk with hk | hk
      · exact absurd hk hkc
      · exact ih (fun q hq => hm q (by simp [hq])) hk

theorem checkCurrencies_onlyGets (getState : GoBytes → Except Err (S × Bool)) (a : A)
    (cs : List (CurrencyDesign A P)) (gas sts : StateMap S) :
    onlyGets (checkCurrencies (H := H) G getState a cs gas sts).1 = true := by
  induction cs generalizing gas sts with
  | nil => rfl
  | cons c rest ih =>
    unfold checkCurrencies
    split
    · rfl
    · split
      · rfl
      · rename_i st _ _ bst _
        have := ih (gas.set c.Currency (G.NewAmountState bst c.Currency))
          (sts.set c.Currency st)
        simpa [onlyGets, PoolCall.isGet] using this

theorem checkCurrencies_ok (getState : GoBytes → Except Err (S × Bool)) (a : A)
    (dsg bal : CurrencyID → S) (cs : List (CurrencyDesign A P)) (gas sts : StateMap S)
    (hcs : ∀ c ∈ cs,
      getState (G.StateKeyCurrencyDesign c.Currency) = Except.ok (dsg c.Currency, false) ∧
      getState (G.StateKeyBalance a c.Currency) = Except.ok (bal c.Currency, false)) :
    checkCurrencies (H := H) G getState a cs gas sts
      = (cs.flatMap (fun c => [PoolCall.getState (G.StateKeyCurrencyDesign c.Currency),
            PoolCall.getState (G.StateKeyBalance a c.Currency)]),
         Except.ok
          ((cs.map (fun c => (c.Currency, G.NewAmountState (bal c.Currency) c.Currency))).reverse
              ++ gas,
           (cs.map (fun c => (c.Currency, dsg c.Currency))).reverse ++ sts)) := by
  induction cs generalizing gas sts with
  | nil => rfl
  | cons c rest ih =>
    obtain ⟨h1, h2⟩ := hcs c (by simp)
    have e1 := (notExistsState_ok_iff (G.StateKeyCurrencyDesign c.Currency)
      StateName.currency getState (dsg c.Currency)).2 h1
    have e2 := (notExistsState_ok_iff (G.StateKeyBalance a c.Currency)
      StateName.balanceOfGenesis getState (bal c.Currency)).2 h2
    unfold checkCurrencies
    simp only [e1, e2]
    rw [ih _ _ (fun d hd => hcs d (by simp [hd]))]
    simp [StateMap.set]

theorem checkCurrencies_ok_inv (getState : GoBytes → Except Err (S × Bool)) (a : A)
    (cs : List (CurrencyDesign A P)) (gas sts : StateMap S) (r : StateMap S × StateMap S)
    (h : (checkCurrencies (H := H) G getState a cs gas sts).2 = Except.ok r) :
    ∀ c ∈ cs,
      (∃ st, getState (G.StateKeyCurrencyDesign c.Currency) = Except.ok (st, false)) ∧
      (∃ bst, getState (G.StateKeyBalance a c.Currency) = Except.ok (bst, false)) := by
  induction cs generalizing gas sts with
  | nil => intro c hc; cases hc
  | cons c rest ih =>
    unfold checkCurrencies at h
    split at h
    · cases h
    · rename_i st e1
      split at h
      · cases h
      · rename_i bst e2
        intro d hd
        rcases List.mem_cons.1 hd with rfl | hd
        · exact ⟨⟨st, (notExistsState_ok_iff _ _ _ _).1 e1⟩,
            ⟨bst, (notExistsState_ok_iff _ _ _ _).1 e2⟩⟩
        · exact ih _ _ h d hd

theorem appendCurrencyStates_ok (gas sts : StateMap S) (gst dst : CurrencyDesign A P → S)
    (cs : List (CurrencyDesign A P)) (states : List S)
    (hconv : ∀ c ∈ cs,
      G.SetStateBalanceValue (gas.get G.nilState c.Currency) (NewAmount c.Big c.Currency)
        = Except.ok (gst c) ∧
      G.SetStateCurrencyDesignValue (sts.get G.nilState c.Currency) c = Except.ok (dst c)) :
    appendCurrencyStates G gas sts cs states
      = Except.ok (states ++ cs.flatMap (fun c => [gst c, dst c])) := by
  induction cs generalizing states with
  | nil => simp [appendCurrencyStates]
  | cons c rest ih =>
    obtain ⟨h1, h2⟩ := hconv c (by simp)
    unfold appendCurrencyStates
    simp only [h1, h2]
    rw [ih _ (fun d hd => hconv d (by simp [hd]))]
    simp

theorem appendCurrencyStates_ok_inv (gas sts : StateMap S)
    (cs : List (CurrencyDesign A P)) (states r : List S)
    (h : appendCurrencyStates G gas sts cs states = Except.ok r) :
    ∀ c ∈ cs,
      (∃ gst, G.SetStateBalanceValue (gas.get G.nilState c.Currency)
        (NewAmount c.Big c.Currency) = Except.ok gst) ∧
      (∃ dst, G.SetStateCurrencyDesignValue (sts.get G.nilState c.Currency) c
        = Except.ok dst) := by
  induction cs generalizing states with
  | nil => intro c hc; cases hc
  | cons c rest ih =>
    unfold appendCurrencyStates at h
    split at h
    · cases h
    · rename_i gst e1
      split at h
      · cases h
      · rename_i dst e2
        intro d hd
        rcases List.mem_cons.1 hd with rfl | hd
        · exact ⟨⟨gst, e1⟩, ⟨dst, e2⟩⟩
        · exact ih _ h d hd

end GenesisFacts

/-! ## Claims about GenesisCurrencies.Process -/

section GenesisClaims

variable {PK H A P S Acc : Type}

theorem genesis_process_ok (G : GenesisExt PK H A P S Acc) (op : GenesisCurrencies PK H A P)
    (getState : GoBytes → Except Err (S × Bool)) (setState : H → List S → Option Err)
    (a : A) (ns : S) (ac : Acc) (acst : S) (dsg bal : CurrencyID → S)
    (gst dst : CurrencyDesign A P → S)
    (haddr : op.fact.Address G = Except.ok a)
    (hacct : getState (G.StateKeyAccount a) = Except.ok (ns, false))
    (hcs : ∀ c ∈ op.fact.cs,
      getState (G.StateKeyCurrencyDesign c.Currency) = Except.ok (dsg c.Currency, false) ∧
      getState (G.StateKeyBalance a c.Currency) = Except.ok (bal c.Currency, false))
    (hac : G.NewAccountFromKeys op.fact.keys = Except.ok ac)
    (hacst : G.SetStateAccountValue ns ac = Except.ok acst)
    (hconv : ∀ c ∈ op.fact.cs,
      G.SetStateBalanceValue (G.NewAmountState (bal c.Currency) c.Currency) c.amount
        = Except.ok (gst c) ∧
      G.SetStateCurrencyDesignValue (dsg c.Currency) c = Except.ok (dst c)) :
    GenesisCurrencies.Process G op getState setState
      = (genesisLookups G a op.fact.cs ++
          [PoolCall.setState op.fact.Hash (acst :: op.fact.cs.flatMap (fun c => [gst c, dst c]))],
         setState op.fact.Hash (acst :: op.fact.cs.flatMap (fun c => [gst c, dst c]))) := by
  have e1 := (notExistsState_ok_iff (G.StateKeyAccount a) StateName.keyOfGenesis getState ns).2
    hacct
  have e2 := checkCurrencies_ok (H := H) G getState a dsg bal op.fact.cs [] [] hcs
  have e3 := appendCurrencyStates_ok G
    ((op.fact.cs.map (fun c => (c.Currency, G.NewAmountState (bal c.Currency) c.Currency))).reverse
      ++ [])
    ((op.fact.cs.map (fun c => (c.Currency, dsg c.Currency))).reverse ++ [])
    gst dst op.fact.cs [acst] (by
      intro c hc
      rw [stateMap_get_append _ _ _ (fun cid => G.NewAmountState (bal cid) cid),
        stateMap_get_append _ _ _ dsg]
      · exact hconv c hc
      · intro p hp
        obtain ⟨d, _, rfl⟩ := List.mem_map.1 (List.mem_reverse.1 hp)
        rfl
      · simp only [List.map_reverse, List.map_map, List.mem_reverse, List.mem_map]
        exact ⟨c, hc, rfl⟩
      · intro p hp
        obtain ⟨d, _, rfl⟩ := List.mem_map.1 (List.mem_reverse.1 hp)
        rfl
      · simp only [List.map_reverse, List.map_map, List.mem_reverse, List.mem_map]
        exact ⟨c, hc, rfl⟩)
  unfold GenesisCurrencies.Process
  simp only [haddr, e1, e2, hac, hacst, e3, genesisLookups, List.cons_append,
    List.singleton_append, List.nil_append]

theorem onlyGets_eq_map (calls : List (PoolCall H S)) (h : onlyGets calls = true) :
    ∃ keys : List GoBytes, calls = keys.map PoolCall.getState := by
  induction calls with
  | nil => exact ⟨[], rfl⟩
  | cons c t ih =>
    simp only [onlyGets, List.all_cons, Bool.and_eq_true] at h
    obtain ⟨keys, hk⟩ := ih h.2
    cases c with
    | getState key => exact ⟨key :: keys, by simp [hk]⟩
    | setState hh sts => simp [PoolCall.isGet] at h

theorem genesis_process_cases (G : GenesisExt PK H A P S Acc) (op : GenesisCurrencies PK H A P)
    (getState : GoBytes → Except Err (S × Bool)) (setState : H → List S → Option Err) :
    ((∃ err, (GenesisCurrencies.Process G op getState setState).2 = some err) ∧
      onlyGets (GenesisCurrencies.Process G op getState setState).1 = true) ∨
    (∃ (a : A) (ns : S) (ac : Acc) (acst : S) (dsg bal : CurrencyID → S)
        (gst dst : CurrencyDesign A P → S),
      op.fact.Address G = Except.ok a ∧
      getState (G.StateKeyAccount a) = Except.ok (ns, false) ∧
      (∀ c ∈ op.fact.cs,
        getState (G.StateKeyCurrencyDesign c.Currency) = Except.ok (dsg c.Currency, false) ∧
        getState (G.StateKeyBalance a c.Currency) = Except.ok (bal c.Currency, false)) ∧
      G.NewAccountFromKeys op.fact.keys = Except.ok ac ∧
      G.SetStateAccountValue ns ac = Except.ok acst ∧
      (∀ c ∈ op.fact.cs,
        G.SetStateBalanceValue (G.NewAmountState (bal c.Currency) c.Currency) c.amount
          = Except.ok (gst c) ∧
        G.SetStateCurrencyDesignValue (dsg c.Currency) c = Except.ok (dst c))) := by
  cases haddr : op.fact.Address G with
  | error err =>
    left
    simp [GenesisCurrencies.Process, haddr, onlyGets]
  | ok a =>
    cases hns : notExistsState (G.StateKeyAccount a) StateName.keyOfGenesis getState with
    | error err =>
      left
      simp [GenesisCurrencies.Process, haddr, hns, onlyGets, PoolCall.isGet]
    | ok ns =>
      have hog := checkCurrencies_onlyGets (H := H) G getState a op.fact.cs [] []
      cases hcc : checkCurrencies (H := H) G getState a op.fact.cs [] [] with
      | mk calls r =>
        rw [hcc] at hog
        have hog2 : onlyGets (PoolCall.getState (G.StateKeyAccount a) :: calls) = true := by
          simpa [onlyGets, PoolCall.isGet] using hog
        cases r with
        | error err =>
          left
          simp only [GenesisCurrencies.Process, haddr, hns, hcc]
          exact ⟨⟨err, rfl⟩, hog2⟩
        | ok maps =>
          obtain ⟨gas, sts⟩ := maps
          cases hac : G.NewAccountFromKeys op.fact.keys with
          | error err =>
            left
            simp only [GenesisCurrencies.Process, haddr, hns, hcc, hac]
            exact ⟨⟨err, rfl⟩, hog2⟩
          | ok ac =>
            cases hacst : G.SetStateAccountValue ns ac with
            | error err =>
              left
              simp only [GenesisCurrencies.Process, haddr, hns, hcc, hac, hacst]
              exact ⟨⟨_, rfl⟩, hog2⟩
            | ok acst =>
              cases hap : appendCurrencyStates G gas sts op.fact.cs [acst] with
              | error err =>
                left
                simp only [GenesisCurrencies.Process, haddr, hns, hcc, hac, hacst, hap]
                exact ⟨⟨err, rfl⟩, hog2⟩
              | ok states =>
                right
                have hinv := checkCurrencies_ok_inv (H := H) G getState a op.fact.cs [] []
                  (gas, sts) (by rw [hcc])
                let dsg : CurrencyID → S := fun cid =>
                  match getState (G.StateKeyCurrencyDesign cid) with
                  | Except.ok (st, _) => st
                  | Except.error _ => G.nilState
                let bal : CurrencyID → S := fun cid =>
                  match getState (G.StateKeyBalance a cid) with
                  | Except.ok (st, _) => st
                  | Except.error _ => G.nilState
                have hcs : ∀ c ∈ op.fact.cs,
                    getState (G.StateKeyCurrencyDesign c.Currency)
                      = Except.ok (dsg c.Currency, false) ∧
                    getState (G.StateKeyBalance a c.Currency)
                      = Except.ok (bal c.Currency, false) := by
                  intro c hc
                  obtain ⟨⟨st, h1⟩, ⟨bst, h2⟩⟩ := hinv c hc
                  simp only [dsg, bal, h1, h2, and_self]
                have e2 := checkCurrencies_ok (H := H) G getState a dsg bal op.fact.cs [] [] hcs
                rw [hcc] at e2
                have hgas := congrArg (fun p => p.1) (Except.ok.inj (congrArg Prod.snd e2))
                have hsts := congrArg (fun p => p.2) (Except.ok.inj (congrArg Prod.snd e2))
                simp only at hgas hsts
                have hconvs := appendCurrencyStates_ok_inv G gas sts op.fact.cs [acst] states hap
                have hget1 : ∀ c ∈ op.fact.cs,
                    gas.get G.nilState c.Currency = G.NewAmountState (bal c.Currency) c.Currency := by
                  intro c hc
                  rw [hgas]
                  apply stateMap_get_append _ _ _ (fun cid => G.NewAmountState (bal cid) cid)
                  · intro p hp
                    obtain ⟨d, _, rfl⟩ := List.mem_map.1 (List.mem_reverse.1 hp)
                    rfl
                  · simp only [List.map_reverse, List.map_map, List.mem_reverse, List.mem_map]
                    exact ⟨c, hc, rfl⟩
                have hget2 : ∀ c ∈ op.fact.cs, sts.get G.nilState c.Currency = dsg c.Currency := by
                  intro c hc
                  rw [hsts]
                  apply stateMap_get_append _ _ _ dsg
                  · intro p hp
                    obtain ⟨d, _, rfl⟩ := List.mem_map.1 (List.mem_reverse.1 hp)
                    rfl
                  · simp only [List.map_reverse, List.map_map, List.mem_reverse, List.mem_map]
                    exact ⟨c, hc, rfl⟩
                let gst : CurrencyDesign A P → S := fun c =>
                  match G.SetStateBalanceValue (G.NewAmountState (bal c.Currency) c.Currency)
                      c.amount with
                  | Except.ok st => st
                  | Except.error _ => G.nilState
                let dst : CurrencyDesign A P → S := fun c =>
                  match G.SetStateCurrencyDesignValue (dsg c.Currency) c with
                  | Except.ok st => st
                  | Except.error _ => G.nilState
                refine ⟨a, ns, ac, acst, dsg, bal, gst, dst,
                  rfl, (notExistsState_ok_iff _ _ _ _).1 hns, hcs, rfl, hacst, ?_⟩
                intro c hc
                obtain ⟨⟨g1, hg1⟩, ⟨d1, hd1⟩⟩ := hconvs c hc
                rw [hget1 c hc] at hg1
                rw [hget2 c hc] at hd1
                have hg1' : G.SetStateBalanceValue (G.NewAmountState (bal c.Currency) c.Currency)
                    c.amount = Except.ok g1 := hg1
                simp only [gst, dst, hg1', hd1, and_self]

theorem genesisLookups_eq_map (G : GenesisExt PK H A P S Acc) (a : A)
    (cs : List (CurrencyDesign A P)) :
    genesisLookups (H := H) (S := S) G a cs
      = (G.StateKeyAccount a :: cs.flatMap (fun c =>
          [G.StateKeyCurrencyDesign c.Currency, G.StateKeyBalance a c.Currency])).map
          PoolCall.getState := by
  unfold genesisLookups
  induction cs with
  | nil => rfl
  | cons c t ih =>
    simp only [List.map_cons, List.cons.injEq, true_and] at ih
    simp [List.flatMap_cons, ih]

theorem genesisLookups_filter (G : GenesisExt PK H A P S Acc) (a : A)
    (cs : List (CurrencyDesign A P)) :
    (genesisLookups (H := H) (S := S) G a cs).filter (fun call => !call.isGet) = [] := by
  rw [genesisLookups_eq_map, List.filter_eq_nil_iff]
  intro call hc
  obtain ⟨key, _, rfl⟩ := List.mem_map.1 hc
  simp [PoolCall.isGet]

/-- C5: when the address, account, currency-design and balance lookups find
nothing and every conversion succeeds, `Process` makes its lookups and then
calls `setState` exactly once, keyed by the fact hash, with `1 + 2N` states:
the account state for the address derived from the keys of the fact, then for
each listed currency, in list order, the balance state of the genesis account
set to the `Amount` that is the total supply of the design, followed by the
currency-design state set to the design. `Process` returns what `setState`
returns. -/
theorem genesis_process_sets_states (G : GenesisExt PK H A P S Acc)
    (op : GenesisCurrencies PK H A P)
    (getState : GoBytes → Except Err (S × Bool)) (setState : H → List S → Option Err)
    (a : A) (ns : S) (ac : Acc) (acst : S) (dsg bal : CurrencyID → S)
    (gst dst : CurrencyDesign A P → S)
    (haddr : G.NewAddressFromKeys op.fact.keys = Except.ok a)
    (hacct : getState (G.StateKeyAccount a) = Except.ok (ns, false))
    (hcs : ∀ c ∈ op.fact.cs,
      getState (G.StateKeyCurrencyDesign c.Currency) = Except.ok (dsg c.Currency, false) ∧
      getState (G.StateKeyBalance a c.Currency) = Except.ok (bal c.Currency, false))
    (hac : G.NewAccountFromKeys op.fact.keys = Except.ok ac)
    (hacst : G.SetStateAccountValue ns ac = Except.ok acst)
    (hconv : ∀ c ∈ op.fact.cs,
      G.SetStateBalanceValue (G.NewAmountState (bal c.Currency) c.Currency) c.amount
        = Except.ok (gst c) ∧
      G.SetStateCurrencyDesignValue (dsg c.Currency) c = Except.ok (dst c)) :
    (GenesisCurrencies.Process G op getState setState).1
      = genesisLookups G a op.fact.cs ++
          [PoolCall.setState op.fact.Hash
            (acst :: op.fact.cs.flatMap (fun c => [gst c, dst c]))] ∧
    (GenesisCurrencies.Process G op getState setState).2
      = setState op.fact.Hash (acst :: op.fact.cs.flatMap (fun c => [gst c, dst c])) ∧
    (GenesisCurrencies.Process G op getState setState).1.filter (fun call => !call.isGet)
      = [PoolCall.setState op.fact.Hash
          (acst :: op.fact.cs.flatMap (fun c => [gst c, dst c]))] ∧
    (acst :: op.fact.cs.flatMap (fun c => [gst c, dst c])).length
      = 1 + 2 * op.fact.cs.length ∧
    (∀ c ∈ op.fact.cs, NewAmount c.Big c.Currency = c.amount) := by
  have h := genesis_process_ok G op getState setState a ns ac acst dsg bal gst dst
    haddr hacct hcs hac hacst hconv
  refine ⟨by rw [h], by rw [h], ?_, ?_, fun _ _ => rfl⟩
  · rw [h]
    simp only [List.filter_append, genesisLookups_filter, List.nil_append]
    simp [PoolCall.isGet]
  · have : (op.fact.cs.flatMap (fun c => [gst c, dst c])).length = 2 * op.fact.cs.length := by
      induction op.fact.cs with
      | nil => rfl
      | cons c t ih => simp only [List.flatMap_cons, List.length_append, ih, List.length_cons,
          List.length_nil]; omega
    simp only [List.length_cons, this]
    omega

/-- C4: `GenesisCurrencies.Process` is atomic. If the address cannot be derived,
or the genesis account state, the currency-design state of a listed currency or
the balance state of the genesis account for a listed currency exists already
or cannot be looked up, or building the account or one of the state-value
conversions returns an error, then `Process` returns an error and makes no
`setState` call. In every run the pool calls are `getState` calls followed by
at most one `setState` call, keyed by the fact hash, which is the last call. -/
theorem genesis_process_atomic (G : GenesisExt PK H A P S Acc)
    (op : GenesisCurrencies PK H A P)
    (getState : GoBytes → Except Err (S × Bool)) (setState : H → List S → Option Err) :
    (GenesisBlocked G op getState →
      (∃ err, (GenesisCurrencies.Process G op getState setState).2 = some err) ∧
      onlyGets (GenesisCurrencies.Process G op getState setState).1 = true) ∧
    (∃ keys : List GoBytes,
      (GenesisCurrencies.Process G op getState setState).1 = keys.map PoolCall.getState ∨
      ∃ states, (GenesisCurrencies.Process G op getState setState).1
        = keys.map PoolCall.getState ++ [PoolCall.setState op.fact.Hash states]) := by
  rcases genesis_process_cases G op getState setState with h |
    ⟨a, ns, ac, acst, dsg, bal, gst, dst, haddr, hacct, hcs, hac, hacst, hconv⟩
  · refine ⟨fun _ => h, ?_⟩
    obtain ⟨keys, hk⟩ := onlyGets_eq_map _ h.2
    exact ⟨keys, Or.inl hk⟩
  · constructor
    · intro hb
      exfalso
      rcases hb with ⟨err, he⟩ | ⟨a2, ha2, hb⟩
      · rw [haddr] at he
        cases he
      · rw [haddr] at ha2
        cases ha2
        rcases hb with (⟨st, h1⟩ | ⟨err, h1⟩) | ⟨c, hc, hcase⟩ | ⟨err, h1⟩ |
          ⟨ns2, ac2, err, h1, h2, h3⟩ | ⟨c, hc, bst, err, h1, h2⟩ | ⟨c, hc, st, err, h1, h2⟩
        · rw [hacct] at h1; cases h1
        · rw [hacct] at h1; cases h1
        · obtain ⟨hd, hbq⟩ := hcs c hc
          rcases hcase with ⟨st, h1⟩ | ⟨err, h1⟩ | ⟨st, h1⟩ | ⟨err, h1⟩
          · rw [hd] at h1; cases h1
          · rw [hd] at h1; cases h1
          · rw [hbq] at h1; cases h1
          · rw [hbq] at h1; cases h1
        · rw [hac] at h1; cases h1
        · rw [hacct] at h1
          cases h1
          rw [hac] at h2
          cases h2
          rw [hacst] at h3
          cases h3
        · rw [(hcs c hc).2] at h1
          cases h1
          have := (hconv c hc).1
          have h2' : G.SetStateBalanceValue (G.NewAmountState (bal c.Currency) c.Currency)
              c.amount = Except.error err := h2
          rw [this] at h2'
          cases h2'
        · rw [(hcs c hc).1] at h1
          cases h1
          rw [(hconv c hc).2] at h2
          cases h2
    · have h := genesis_process_ok G op getState setState a ns ac acst dsg bal gst dst
        haddr hacct hcs hac hacst hconv
      rw [h, genesisLookups_eq_map]
      exact ⟨_, Or.inr ⟨_, rfl⟩⟩

/-- Witness for C5: the demo genesis operation on an empty pool writes five
states in one `setState` call and returns its result. -/
theorem genesis_process_sets_states_witness :
    (GenesisCurrencies.Process demoGenesisExt demoGenesis (demoGetState []) demoSetState).2
      = none ∧
    (GenesisCurrencies.Process demoGenesisExt demoGenesis (demoGetState []) demoSetState).1.filter
        (fun call => !call.isGet)
      = [PoolCall.setState [9, 9]
          [{ key := 0 :: demoKeys.h, value := DemoValue.account demoKeys.h },
           { key := 2 :: (demoKeys.h ++ [0, 7]), value := DemoValue.amount demoDesignA.amount },
           { key := [1, 7], value := DemoValue.design demoDesignA },
           { key := 2 :: (demoKeys.h ++ [0, 8]), value := DemoValue.amount demoDesignB.amount },
           { key := [1, 8], value := DemoValue.design demoDesignB }]] :=
  have h := genesis_process_sets_states demoGenesisExt demoGenesis (demoGetState [])
    demoSetState demoKeys.h { key := 0 :: demoKeys.h, value := DemoValue.nothing } demoKeys
    { key := 0 :: demoKeys.h, value := DemoValue.account demoKeys.h }
    (fun cid => { key := 1 :: cid, value := DemoValue.nothing })
    (fun cid => { key := 2 :: (demoKeys.h ++ 0 :: cid), value := DemoValue.nothing })
    (fun c => { key := 2 :: (demoKeys.h ++ 0 :: c.Currency), value := DemoValue.amount c.amount })
    (fun c => { key := 1 :: c.Currency, value := DemoValue.design c })
    rfl rfl (fun _ _ => ⟨rfl, rfl⟩) rfl rfl (fun _ _ => ⟨rfl, rfl⟩)
  ⟨h.2.1, h.2.2.1⟩

/-- Witness for C4: the currency-design state of the second listed currency
exists already; the demo genesis operation fails with "currency already
exists" after four lookups and writes nothing. -/
theorem genesis_process_atomic_witness :
    GenesisBlocked demoGenesisExt demoGenesis (demoGetState [[1, 8]]) ∧
    (GenesisCurrencies.Process demoGenesisExt demoGenesis (demoGetState [[1, 8]])
      demoSetState).2 = some (Err.alreadyExists StateName.currency.code) ∧
    ((∃ err, (GenesisCurrencies.Process demoGenesisExt demoGenesis (demoGetState [[1, 8]])
        demoSetState).2 = some err) ∧
      onlyGets (GenesisCurrencies.Process demoGenesisExt demoGenesis (demoGetState [[1, 8]])
        demoSetState).1 = true) :=
  have hb : GenesisBlocked demoGenesisExt demoGenesis (demoGetState [[1, 8]]) :=
    Or.inr ⟨demoKeys.h, rfl, Or.inr (Or.inl ⟨demoDesignB, by simp [demoGenesis],
      Or.inl ⟨_, rfl⟩⟩)⟩
  ⟨hb, by decide,
    (genesis_process_atomic demoGenesisExt demoGenesis (demoGetState [[1, 8]])
      demoSetState).1 hb⟩

end GenesisClaims

/-! ## Round trip of the decoding -/

section EqualFacts

variable {PK H : Type} (X : Ext PK H)

theorem key_equal_iff_eq (hlaw : ∀ a b, X.pkEqual a b = true ↔ a = b) (a b : Key PK) :
    Key.Equal X a b = true ↔ a = b := by
  unfold Key.Equal
  by_cases hw : a.w ≠ b.w
  · rw [if_pos hw]
    constructor
    · intro h; cases h
    · intro h; exact absurd (congrArg Key.w h) hw
  · rw [if_neg hw]
    have hw2 : a.w = b.w := not_not.1 hw
    cases hk : X.pkEqual a.k b.k
    · simp only [Bool.not_false, if_true]
      constructor
      · intro h; cases h
      · intro h
        have : X.pkEqual a.k b.k = true := (hlaw _ _).2 (congrArg Key.k h)
        rw [hk] at this
        cases this
    · simp only [Bool.not_true, Bool.false_eq_true, if_false, true_iff]
      have hk2 := (hlaw _ _).1 hk
      cases a
      cases b
      simp_all

theorem zip_all_equal_iff (hlaw : ∀ a b, X.pkEqual a b = true ↔ a = b)
    (l1 l2 : List (Key PK)) (hlen : l1.length = l2.length) :
    (l1.zip l2).all (fun p => Key.Equal X p.1 p.2) = true ↔ l1 = l2 := by
  induction l1 generalizing l2 with
  | nil =>
    cases l2 with
    | nil => simp
    | cons b t => simp at hlen
  | cons a t ih =>
    cases l2 with
    | nil => simp at hlen
    | cons b t2 =>
      simp only [List.length_cons, Nat.add_right_cancel_iff] at hlen
      simp only [List.zip_cons_cons, List.all_cons, Bool.and_eq_true, ih t2 hlen,
        key_equal_iff_eq X hlaw, List.cons.injEq]

theorem keys_equal_iff_sorted (hlaw : ∀ a b, X.pkEqual a b = true ↔ a = b)
    (a b : Keys PK H) :
    Keys.Equal X a b = true ↔
      a.threshold = b.threshold ∧ sortKeys X a.keys = sortKeys X b.keys := by
  unfold Keys.Equal
  by_cases hth : a.threshold ≠ b.threshold
  · rw [if_pos hth]
    constructor
    · intro h; cases h
    · intro h; exact absurd h.1 hth
  · rw [if_neg hth]
    have hth2 : a.threshold = b.threshold := not_not.1 hth
    by_cases hl : a.keys.length ≠ b.keys.length
    · rw [if_pos hl]
      constructor
      · intro h; cases h
      · intro h
        exfalso
        apply hl
        have := congrArg List.length h.2
        rw [(sortKeys_perm X a.keys).length_eq, (sortKeys_perm X b.keys).length_eq] at this
        exact this
    · rw [if_neg hl]
      have hl2 : (sortKeys X a.keys).length = (sortKeys X b.keys).length := by
        rw [(sortKeys_perm X a.keys).length_eq, (sortKeys_perm X b.keys).length_eq]
        exact not_not.1 hl
      rw [zip_all_equal_iff X hlaw _ _ hl2]
      exact ⟨fun h => ⟨hth2, h⟩, fun h => h.2⟩

theorem unpackKeys_roundtrip (hlaw : ∀ a b, X.pkEqual a b = true ↔ a = b)
    (encode : Key PK → GoBytes) (DecodeByHint : GoBytes → Except Err (Hinter PK))
    (keys : List (Key PK))
    (hdec : ∀ ky ∈ keys, ∃ ky2, DecodeByHint (encode ky) = Except.ok (Hinter.key ky2) ∧
      Key.Equal X ky2 ky = true) :
    unpackKeys DecodeByHint (keys.map encode) = Except.ok keys := by
  induction keys with
  | nil => rfl
  | cons ky t ih =>
    obtain ⟨ky2, h1, h2⟩ := hdec ky (by simp)
    have e : ky2 = ky := (key_equal_iff_eq X hlaw _ _).1 h2
    subst e
    simp only [List.map_cons, unpackKeys, h1, ih (fun k hk => hdec k (by simp [hk]))]

end EqualFacts

section RoundTrip

variable {PK H : Type}

/-- C11: round trip of `Keys` and `Key`. When `Equal` on public keys is
equality and the encoder decodes the encoded form of each key of `ks` back to
a `Key` that is `Equal` to the original, `Keys.unpack` given the hash of `ks`,
the encoded keys and the threshold of `ks` returns no error and leaves a value
that is `Equal` to `ks`, has the same hash and has the same `IsValid` result as
`ks`; and `Key.unpack` given the weight of a key and a decoded public key
`Equal` to its public key returns no error and leaves a `Key` that is `Equal`
to the original. -/
theorem keys_unpack_roundtrip (X : Ext PK H)
    (hlaw : ∀ a b, X.pkEqual a b = true ↔ a = b)
    (ks ks0 : Keys PK H) (encode : Key PK → GoBytes)
    (DecodeByHint : GoBytes → Except Err (Hinter PK))
    (hdec : ∀ ky ∈ ks.keys, ∃ ky2, DecodeByHint (encode ky) = Except.ok (Hinter.key ky2) ∧
      Key.Equal X ky2 ky = true)
    (ky ky0 : Key PK) (k2 : PK) (hk : X.pkEqual k2 ky.k = true) :
    (ks0.unpack DecodeByHint ks.h (ks.keys.map encode) ks.threshold).2 = none ∧
    Keys.Equal X (ks0.unpack DecodeByHint ks.h (ks.keys.map encode) ks.threshold).1 ks = true ∧
    (ks0.unpack DecodeByHint ks.h (ks.keys.map encode) ks.threshold).1.h = ks.h ∧
    Keys.IsValid X (ks0.unpack DecodeByHint ks.h (ks.keys.map encode) ks.threshold).1
      = Keys.IsValid X ks ∧
    (ky0.unpack ky.w (Except.ok k2)).2 = none ∧
    Key.Equal X (ky0.unpack ky.w (Except.ok k2)).1 ky = true := by
  have e : ks0.unpack DecodeByHint ks.h (ks.keys.map encode) ks.threshold = (ks, none) := by
    unfold Keys.unpack
    rw [unpackKeys_roundtrip X hlaw encode DecodeByHint ks.keys hdec]
  rw [e]
  refine ⟨rfl, ?_, rfl, rfl, rfl, ?_⟩
  · exact (keys_equal_iff_sorted X hlaw ks ks).2 ⟨rfl, rfl⟩
  · have : k2 = ky.k := (hlaw _ _).1 hk
    subst this
    exact (key_equal_iff_eq X hlaw _ _).2 rfl

/-- Witness for C11: the demo key set, encoded key by key and unpacked into
an unrelated value. -/
theorem keys_unpack_roundtrip_witness :
    (∀ a b, demoExt.pkEqual a b = true ↔ a = b) ∧
    (demoHeavyKeys.unpack demoDecodeByHint demoKeys.h (demoKeys.keys.map demoEncodeKey)
      demoKeys.threshold).2 = none ∧
    Keys.Equal demoExt (demoHeavyKeys.unpack demoDecodeByHint demoKeys.h
      (demoKeys.keys.map demoEncodeKey) demoKeys.threshold).1 demoKeys = true :=
  have h := keys_unpack_roundtrip demoExt (fun a b => by simp [demoExt]) demoKeys
    demoHeavyKeys demoEncodeKey demoDecodeByHint
    (fun ky _ => ⟨ky, rfl, by simp [Key.Equal, demoExt]⟩) demoKeyA demoKeyB [1] (by decide)
  ⟨fun a b => by simp [demoExt], h.1, h.2.1⟩

end RoundTrip

/-! ## Claims about Keys.Equal -/

section EqualClaims

variable {PK H : Type}

theorem key_equal_comm (X : Ext PK H) (hsymm : ∀ a b, X.pkEqual a b = X.pkEqual b a)
    (a b : Key PK) : Key.Equal X a b = Key.Equal X b a := by
  unfold Key.Equal
  rw [hsymm a.k b.k]
  by_cases hw : a.w = b.w
  · have hw2 : ¬ a.w ≠ b.w := not_not.2 hw
    have hw3 : ¬ b.w ≠ a.w := not_not.2 hw.symm
    rw [if_neg hw2, if_neg hw3]
  · have hw3 : b.w ≠ a.w := fun h => hw h.symm
    rw [if_pos hw, if_pos hw3]

theorem zip_all_comm (X : Ext PK H) (hsymm : ∀ a b, X.pkEqual a b = X.pkEqual b a)
    (l1 l2 : List (Key PK)) :
    (l1.zip l2).all (fun p => Key.Equal X p.1 p.2)
      = (l2.zip l1).all (fun p => Key.Equal X p.1 p.2) := by
  induction l1 generalizing l2 with
  | nil => cases l2 <;> rfl
  | cons a t ih =>
    cases l2 with
    | nil => rfl
    | cons b t2 =>
      simp only [List.zip_cons_cons, List.all_cons, ih t2, key_equal_comm X hsymm a b]

/-- C19: for two `Keys` values `a` and `b` whose key lists have no repeated
public key, `a.Equal(b)` is true exactly when the thresholds are equal and the
key lists are permutations of each other; the stored hash is not compared, and
`Equal` is reflexive and symmetric. Public keys are taken to be `Equal` exactly
when they are the same key, and to be told apart by their raw bytes. -/
theorem keys_equal_iff_perm (X : Ext PK H)
    (hlaw : ∀ a b, X.pkEqual a b = true ↔ a = b)
    (hinj : ∀ a b, X.pkBytes a = X.pkBytes b → a = b)
    (a b : Keys PK H)
    (ha : (a.keys.map (fun ky => ky.k)).Nodup) (_hb : (b.keys.map (fun ky => ky.k)).Nodup)
    (h1 h2 : H) :
    (Keys.Equal X a b = true ↔ a.threshold = b.threshold ∧ a.keys.Perm b.keys) ∧
    Keys.Equal X { a with h := h1 } { b with h := h2 } = Keys.Equal X a b ∧
    Keys.Equal X a a = true ∧
    Keys.Equal X a b = Keys.Equal X b a := by
  have hbytes : (a.keys.map (fun ky => X.pkBytes ky.k)).Nodup := by
    have : a.keys.map (fun ky => X.pkBytes ky.k) = (a.keys.map (fun ky => ky.k)).map X.pkBytes := by
      rw [List.map_map]; rfl
    rw [this]
    exact List.Nodup.map (fun x y h => hinj x y h) ha
  have hsymm : ∀ x y, X.pkEqual x y = X.pkEqual y x := by
    intro x y
    cases hxy : X.pkEqual x y
    · cases hyx : X.pkEqual y x
      · rfl
      · have := (hlaw x y).2 ((hlaw y x).1 hyx).symm
        rw [hxy] at this
        cases this
    · exact ((hlaw y x).2 ((hlaw x y).1 hxy).symm).symm
  refine ⟨?_, rfl, (keys_equal_iff_sorted X hlaw a a).2 ⟨rfl, rfl⟩, ?_⟩
  · rw [keys_equal_iff_sorted X hlaw]
    constructor
    · rintro ⟨ht, hs⟩
      refine ⟨ht, ?_⟩
      exact ((sortKeys_perm X a.keys).symm.trans (hs ▸ List.Perm.refl _)).trans
        (sortKeys_perm X b.keys)
    · rintro ⟨ht, hp⟩
      exact ⟨ht, sortKeys_eq_of_perm X a.keys b.keys hp hbytes⟩
  · unfold Keys.Equal
    by_cases ht : a.threshold = b.threshold
    · by_cases hl : a.keys.length = b.keys.length
      · rw [if_neg (not_not.2 ht), if_neg (not_not.2 hl), if_neg (not_not.2 ht.symm),
          if_neg (not_not.2 hl.symm)]
        exact zip_all_comm X hsymm _ _
      · rw [if_neg (not_not.2 ht), if_pos hl, if_neg (not_not.2 ht.symm),
          if_pos (fun h => hl h.symm)]
    · rw [if_pos ht, if_pos (fun h => ht h.symm)]

/-- Witness for C19: the demo key set against its keys in the other order and
under another hash. -/
theorem keys_equal_iff_perm_witness :
    (∀ a b, demoExt.pkEqual a b = true ↔ a = b) ∧
    (∀ a b, demoExt.pkBytes a = demoExt.pkBytes b → a = b) ∧
    (demoKeys.keys.map (fun ky => ky.k)).Nodup ∧
    Keys.Equal demoExt demoKeys (⟨[], [demoKeyB, demoKeyA], 100⟩ : Keys GoBytes GoBytes)
      = true :=
  ⟨fun a b => by simp [demoExt], fun _ _ h => h, by decide,
    ((keys_equal_iff_perm demoExt (fun a b => by simp [demoExt]) (fun _ _ h => h) demoKeys
      (⟨[], [demoKeyB, demoKeyA], 100⟩ : Keys GoBytes GoBytes) (by decide) (by decide)
      [] []).1).2 ⟨rfl, List.Perm.swap _ _ _⟩⟩

end EqualClaims

/-! ## Errors reported by NewKeys -/

section ErrorKinds

variable {PK H : Type}

theorem newKeys_none_imp (X : Ext PK H) (keys : List (Key PK)) (threshold : Nat)
    (h : (NewKeys X keys threshold).2 = none) :
    (1 ≤ threshold ∧ threshold ≤ 100) ∧ (1 ≤ keys.length ∧ keys.length ≤ 10) ∧
    (keys.map (fun ky => X.pkString ky.k)).Nodup ∧
    threshold ≤ (keys.map Key.Weight).sum := by
  have hp := sortKeys_perm X keys
  have hlen : (sortKeys X keys).length = keys.length := hp.length_eq
  have hsum : ((sortKeys X keys).map Key.Weight).sum = (keys.map Key.Weight).sum :=
    (hp.map Key.Weight).sum_eq
  have hkeys := checkEachKey_sortKeys_none_iff X keys
  change Keys.IsValid X ⟨X.NewSHA256 (keysBytes X keys threshold), sortKeys X keys, threshold⟩
    = none at h
  unfold Keys.IsValid at h
  simp only [hlen, totalWeight_eq, hsum, MaxKeyInKeys] at h
  split at h
  · cases h
  · rename_i hth
    split at h
    · cases h
    · split at h
      · cases h
      · rename_i hl1
        split at h
        · cases h
        · rename_i hl2
          split at h
          · cases h
          · rename_i hc
            obtain ⟨hk1, hk2⟩ := hkeys.1 hc
            have hbound : (keys.map Key.Weight).sum < UintMod := by
              have := weight_sum_le keys (fun ky hk => (hk1 ky hk).2.1)
              have : (keys.map Key.Weight).sum ≤ 1000 := by omega
              exact lt_of_le_of_lt this (by decide)
            rw [Nat.mod_eq_of_lt hbound] at h
            split at h
            · cases h
            · rename_i hw
              exact ⟨by omega, by omega, hk2, by omega⟩

theorem checkEachKey_all_valid (X : Ext PK H) (keys : List (Key PK)) (m : List GoBytes)
    (hv : ∀ ky ∈ keys, ky.IsValid X = none) :
    checkEachKey X keys m = none ∨ checkEachKey X keys m = some Err.duplicatedKeys := by
  induction keys generalizing m with
  | nil => exact Or.inl rfl
  | cons ky t ih =>
    unfold checkEachKey
    rw [hv ky (by simp)]
    by_cases hm : X.pkString ky.k ∈ m
    · exact Or.inr (by simp [hm])
    · simp only [hm, if_false]
      exact ih _ (fun k hk => hv k (by simp [hk]))

/-- C12, as amended: each of the four violations (no key, more than 10 keys,
two entries with the same public key, weights that sum to less than the
threshold) makes `NewKeys` fail. The error reported is the one of the first
check that fails, in the order threshold range, hash, empty, too many, keys one
by one, total weight. So with a threshold in `[1,100]` and a hash that passes
its validation: zero keys give the empty-keys error; more than 10 keys give the
too-many-keys error; between 1 and 10 keys that are each valid and of which two
share a public key give the duplicate-key error; and between 1 and 10 valid keys
without a repeated public key whose weights sum to less than the threshold give
the insufficient-total-weight error. -/
theorem newKeys_error_kinds (X : Ext PK H) (keys : List (Key PK)) (threshold : Nat) :
    ((keys = [] ∨ 10 < keys.length ∨ ¬ (keys.map (fun ky => X.pkString ky.k)).Nodup ∨
        (keys.map Key.Weight).sum < threshold) →
      ∃ err, (NewKeys X keys threshold).2 = some err) ∧
    ((∀ b, X.hashIsValid (X.NewSHA256 b) = none) → 1 ≤ threshold ∧ threshold ≤ 100 →
      (keys = [] → (NewKeys X keys threshold).2 = some Err.emptyKeys) ∧
      (10 < keys.length →
        (NewKeys X keys threshold).2 = some (Err.keysOver 10 keys.length)) ∧
      (1 ≤ keys.length ∧ keys.length ≤ 10 → (∀ ky ∈ keys, ky.IsValid X = none) →
        ¬ (keys.map (fun ky => X.pkString ky.k)).Nodup →
        (NewKeys X keys threshold).2 = some Err.duplicatedKeys) ∧
      (1 ≤ keys.length ∧ keys.length ≤ 10 → (∀ ky ∈ keys, ky.IsValid X = none) →
        (keys.map (fun ky => X.pkString ky.k)).Nodup →
        (keys.map Key.Weight).sum < threshold →
        (NewKeys X keys threshold).2
          = some (Err.weightUnderThreshold (keys.map Key.Weight).sum threshold))) := by
  constructor
  · intro hviol
    cases hr : (NewKeys X keys threshold).2 with
    | some err => exact ⟨err, rfl⟩
    | none =>
      exfalso
      obtain ⟨_, hl, hnd, hs⟩ := newKeys_none_imp X keys threshold hr
      rcases hviol with h | h | h | h
      · rw [h] at hl; simp at hl
      · omega
      · exact h hnd
      · omega
  · intro hvalid hth
    have hp := sortKeys_perm X keys
    have hlen : (sortKeys X keys).length = keys.length := hp.length_eq
    have hsum : ((sortKeys X keys).map Key.Weight).sum = (keys.map Key.Weight).sum :=
      (hp.map Key.Weight).sum_eq
    have hth2 : ¬ (threshold < 1 ∨ threshold > 100) := by omega
    have hunf : (NewKeys X keys threshold).2
        = if keys.length < 1 then some Err.emptyKeys
          else if keys.length > 10 then some (Err.keysOver 10 keys.length)
          else
            match checkEachKey X (sortKeys X keys) [] with
            | some err => some err
            | none =>
              if (keys.map Key.Weight).sum % UintMod < threshold then
                some (Err.weightUnderThreshold ((keys.map Key.Weight).sum % UintMod) threshold)
              else if !X.hashEqual (X.NewSHA256 (keysBytes X keys threshold))
                  (X.NewSHA256 (keysBytes X keys threshold)) then
                some Err.hashNotMatched
              else none := by
      show Keys.IsValid X ⟨X.NewSHA256 (keysBytes X keys threshold), sortKeys X keys,
        threshold⟩ = _
      unfold Keys.IsValid
      simp only [hvalid, hlen, Keys.GenerateHash, Keys.Bytes, keysBytes_sortKeys,
        totalWeight_eq, hsum, MaxKeyInKeys]
      rw [if_neg hth2]
    have hvalidSorted : (∀ ky ∈ keys, ky.IsValid X = none) →
        ∀ ky ∈ sortKeys X keys, ky.IsValid X = none :=
      fun hv ky hk => hv ky (hp.mem_iff.1 hk)
    refine ⟨?_, ?_, ?_, ?_⟩
    · intro he
      rw [hunf, he]
      rfl
    · intro hl
      rw [hunf, if_neg (by omega), if_pos hl]
    · intro hl hv hnd
      rw [hunf, if_neg (by omega), if_neg (by omega)]
      rcases checkEachKey_all_valid X (sortKeys X keys) [] (hvalidSorted hv) with hc | hc
      · exact absurd ((checkEachKey_sortKeys_none_iff X keys).1 hc).2 hnd
      · rw [hc]
    · intro hl hv hnd hs
      rw [hunf, if_neg (by omega), if_neg (by omega)]
      have hc : checkEachKey X (sortKeys X keys) [] = none :=
        (checkEachKey_sortKeys_none_iff X keys).2
          ⟨fun ky hk => (key_isValid_none_iff X ky).1 (hv ky hk), hnd⟩
      rw [hc]
      have hbound : (keys.map Key.Weight).sum < UintMod := by
        have := weight_sum_le keys
          (fun ky hk => ((key_isValid_none_iff X ky).1 (hv ky hk)).2.1)
        have : (keys.map Key.Weight).sum ≤ 1000 := by omega
        exact lt_of_le_of_lt this (by decide)
      simp only [Nat.mod_eq_of_lt hbound]
      rw [if_pos hs]

/-- Witness for C12 as amended: no key and threshold 100 (empty-keys error),
and the same key twice (duplicate-key error). -/
theorem newKeys_error_kinds_witness :
    (∃ err, (NewKeys demoExt ([] : List (Key GoBytes)) 100).2 = some err) ∧
    (NewKeys demoExt ([] : List (Key GoBytes)) 100).2 = some Err.emptyKeys ∧
    (NewKeys demoExt [demoKeyA, demoKeyA] 100).2 = some Err.duplicatedKeys :=
  ⟨(newKeys_error_kinds demoExt [] 100).1 (Or.inl rfl),
   ((newKeys_error_kinds demoExt [] 100).2 (fun _ => rfl) (by decide)).1 rfl,
   ((newKeys_error_kinds demoExt [demoKeyA, demoKeyA] 100).2 (fun _ => rfl)
      (by decide)).2.2.1 (by decide) (by decide) (by decide)⟩

/-- Counterexample to C12 as stated: with no key and the threshold 0 the
threshold check comes first and `NewKeys` reports the invalid threshold, not the
empty-keys error; with no key and the threshold 5 the weights sum to 0, below
the threshold, and the error is the empty-keys error, not the insufficient
total weight. -/
theorem newKeys_error_kinds_counterexample :
    (NewKeys demoExt ([] : List (Key GoBytes)) 0).2 = some (Err.invalidThreshold 0) ∧
    (NewKeys demoExt ([] : List (Key GoBytes)) 0).2 ≠ some Err.emptyKeys ∧
    (([] : List (Key GoBytes)).map Key.Weight).sum < 5 ∧
    (NewKeys demoExt ([] : List (Key GoBytes)) 5).2 = some Err.emptyKeys ∧
    (NewKeys demoExt ([] : List (Key GoBytes)) 5).2
      ≠ some (Err.weightUnderThreshold 0 5) :=
  ⟨by decide, by decide, by decide, by decide, by decide⟩

end ErrorKinds

/-! ## The order behind the content hash -/

section HashOrder

variable {PK H : Type}

/-- C13, as amended: the content hash of a `Keys` value is the hash of the byte
encodings of its keys concatenated in ascending order of raw public-key bytes
(not of weight), followed by the threshold; two key lists that differ only in
order, and in which no two keys have the same raw public-key bytes, produce the
hash of the same sequence ordered by public key. -/
theorem keys_hash_order (X : Ext PK H) (ks : Keys PK H) (keys keys2 : List (Key PK))
    (threshold : Nat) :
    (ks.GenerateHash X
        = X.NewSHA256 (ConcatBytesSlice
            ((sortKeys X ks.keys).map (Key.Bytes X) ++ [X.UintToBytes ks.threshold])) ∧
      (sortKeys X ks.keys).Perm ks.keys ∧ ascendingByKeyBytes X (sortKeys X ks.keys)) ∧
    ((NewKeys X keys threshold).1.h
        = X.NewSHA256 (ConcatBytesSlice
            ((sortKeys X keys).map (Key.Bytes X) ++ [X.UintToBytes threshold]))) ∧
    (keys.Perm keys2 → (keys.map (fun ky => X.pkBytes ky.k)).Nodup →
      sortKeys X keys = sortKeys X keys2 ∧
      (NewKeys X keys threshold).1.h = (NewKeys X keys2 threshold).1.h) := by
  refine ⟨⟨rfl, sortKeys_perm X _, ?_⟩, rfl, ?_⟩
  · refine (sortKeys_ordered X ks.keys).imp ?_
    intro a b hab
    simp only [keyLess, decide_eq_false_iff_not, not_lt] at hab
    rw [bytesCompare_swap (X.pkBytes b.k) (X.pkBytes a.k)]
    omega
  · intro hp hd
    have e := sortKeys_eq_of_perm X keys keys2 hp hd
    refine ⟨e, ?_⟩
    show X.NewSHA256 (keysBytes X keys threshold) = X.NewSHA256 (keysBytes X keys2 threshold)
    simp only [keysBytes, e]

/-- Witness for C13 as amended: the two orders of the two demo keys. -/
theorem keys_hash_order_witness :
    [demoKeyB, demoKeyA].Perm [demoKeyA, demoKeyB] ∧
    ([demoKeyB, demoKeyA].map (fun ky => demoExt.pkBytes ky.k)).Nodup ∧
    (NewKeys demoExt [demoKeyB, demoKeyA] 100).1.h
      = (NewKeys demoExt [demoKeyA, demoKeyB] 100).1.h :=
  ⟨List.Perm.swap _ _ _, by decide,
    ((keys_hash_order demoExt demoKeys [demoKeyB, demoKeyA] [demoKeyA, demoKeyB] 100).2.2
      (List.Perm.swap _ _ _) (by decide)).2⟩

/-- Counterexample to C13 as stated: three keys with the public keys 1, 2, 3
and the weights 50, 10, 30. The hashed bytes follow the public keys, an order
that is neither ascending nor descending by weight, and no arrangement of the
keys that is ordered by weight has those bytes (the demo hash is the hashed
bytes themselves). -/
theorem keys_hash_order_counterexample :
    ¬ ∃ l : List (Key GoBytes), l.Perm demoMixedKeys ∧
        (ascendingByWeight l ∨ descendingByWeight l) ∧
        Keys.GenerateHash demoExt (⟨[], demoMixedKeys, 60⟩ : Keys GoBytes GoBytes)
          = demoExt.NewSHA256 (ConcatBytesSlice
              (l.map (Key.Bytes demoExt) ++ [demoExt.UintToBytes 60])) := by
  rintro ⟨l, hp, hs, hb⟩
  have hlen : l.length = 3 := hp.length_eq
  match l, hlen with
  | [x, y, z], _ =>
    have hx : x ∈ demoMixedKeys := hp.subset (by simp)
    have hy : y ∈ demoMixedKeys := hp.subset (by simp)
    have hz : z ∈ demoMixedKeys := hp.subset (by simp)
    simp only [demoMixedKeys, List.mem_cons, List.mem_singleton, List.not_mem_nil,
      or_false] at hx hy hz
    unfold ascendingByWeight descendingByWeight at hs
    rcases hx with rfl | rfl | rfl <;> rcases hy with rfl | rfl | rfl <;>
      rcases hz with rfl | rfl | rfl <;> revert hs hb <;> decide

end HashOrder

/-! ## The in-place sort of the key list -/

section InPlaceSort

variable {PK H : Type}

theorem ascending_iff_ordered (X : Ext PK H) (l : List (Key PK)) :
    ascendingByKeyBytes X l ↔ l.Pairwise (fun a b => keyLess X b a = false) := by
  unfold ascendingByKeyBytes
  have e : ∀ a b : Key PK,
      bytesCompare (X.pkBytes a.k) (X.pkBytes b.k) ≤ 0 ↔ keyLess X b a = false := by
    intro a b
    simp only [keyLess, decide_eq_false_iff_not, not_lt]
    rw [bytesCompare_swap (X.pkBytes b.k) (X.pkBytes a.k)]
    omega
  constructor
  · intro h; exact h.imp (fun hab => (e _ _).1 hab)
  · intro h; exact h.imp (fun hab => (e _ _).2 hab)

theorem sortKeys_eq_self_iff (X : Ext PK H) (l : List (Key PK)) :
    sortKeys X l = l ↔ ascendingByKeyBytes X l := by
  constructor
  · intro h
    rw [ascending_iff_ordered, ← h]
    exact sortKeys_ordered X l
  · intro h
    exact sortSlice_of_ordered _ _ ((ascending_iff_ordered X l).1 h)

theorem isValidRun_fst (X : Ext PK H) (ks : Keys PK H) :
    (ks.IsValidRun X).1 = ks.IsValid X := by
  unfold Keys.IsValidRun Keys.IsValid
  split
  · rfl
  · split
    · rfl
    · split
      · rfl
      · split
        · rfl
        · split
          · rfl
          · split
            · rfl
            · split <;> rfl

theorem isValidRun_snd_of_none (X : Ext PK H) (ks : Keys PK H) (h : ks.IsValid X = none) :
    (ks.IsValidRun X).2 = sortKeys X ks.keys := by
  rw [← isValidRun_fst] at h
  unfold Keys.IsValidRun at h ⊢
  split
  · rename_i h1; rw [if_pos h1] at h; cases h
  · rename_i h1
    rw [if_neg h1] at h
    split
    · rename_i e hv; rw [hv] at h; cases h
    · rename_i hv
      rw [hv] at h
      simp only at h
      split
      · rename_i h2; rw [if_pos h2] at h; cases h
      · rename_i h2
        rw [if_neg h2] at h
        split
        · rename_i h3; rw [if_pos h3] at h; cases h
        · rename_i h3
          rw [if_neg h3] at h
          split
          · rename_i e hc; rw [hc] at h; cases h
          · rename_i hc
            rw [hc] at h
            simp only at h
            split
            · rename_i h4; rw [if_pos h4] at h; cases h
            · split <;> rfl

theorem isValidRun_snd_cases (X : Ext PK H) (ks : Keys PK H) :
    (ks.IsValidRun X).2 = ks.keys ∨ (ks.IsValidRun X).2 = sortKeys X ks.keys := by
  unfold Keys.IsValidRun
  split
  · exact Or.inl rfl
  · split
    · exact Or.inl rfl
    · split
      · exact Or.inl rfl
      · split
        · exact Or.inl rfl
        · split
          · exact Or.inl rfl
          · split
            · exact Or.inl rfl
            · split <;> exact Or.inr rfl

theorem isValidRun_of_early (X : Ext PK H) (ks : Keys PK H) (hf : failsBeforeHash X ks) :
    (ks.IsValidRun X).2 = ks.keys ∧ ∃ err, (ks.IsValidRun X).1 = some err := by
  unfold Keys.IsValidRun
  by_cases h1 : ks.threshold < 1 ∨ ks.threshold > 100
  · rw [if_pos h1]; exact ⟨rfl, _, rfl⟩
  rw [if_neg h1]
  cases hv : X.hashIsValid ks.h with
  | some err => exact ⟨rfl, _, rfl⟩
  | none =>
    simp only
    by_cases h2 : ks.keys.length < 1
    · rw [if_pos h2]; exact ⟨rfl, _, rfl⟩
    rw [if_neg h2]
    by_cases h3 : ks.keys.length > MaxKeyInKeys
    · rw [if_pos h3]; exact ⟨rfl, _, rfl⟩
    rw [if_neg h3]
    cases hc : checkEachKey X ks.keys [] with
    | some err => exact ⟨rfl, _, rfl⟩
    | none =>
      simp only
      by_cases h4 : totalWeight ks.keys < ks.threshold
      · rw [if_pos h4]; exact ⟨rfl, _, rfl⟩
      exfalso
      obtain ⟨hk1, hk2, _⟩ := (checkEachKey_none_iff X ks.keys []).1 hc
      rcases hf with h | ⟨err, h⟩ | h | h | ⟨ky, hky, err, h⟩ | h | h
      · exact h1 h
      · rw [hv] at h; cases h
      · exact h2 h
      · exact h3 h
      · rw [hk1 ky hky] at h; cases h
      · exact h hk2
      · exact h4 h

theorem isValidRun_of_reach (X : Ext PK H) (ks : Keys PK H) (hf : ¬ failsBeforeHash X ks) :
    (ks.IsValidRun X).2 = sortKeys X ks.keys := by
  have h1 : ¬ (ks.threshold < 1 ∨ ks.threshold > 100) := fun h => hf (Or.inl h)
  have hv : X.hashIsValid ks.h = none := by
    cases hv : X.hashIsValid ks.h with
    | none => rfl
    | some err => exact absurd (Or.inr (Or.inl ⟨err, hv⟩)) hf
  have h2 : ¬ ks.keys.length < 1 := fun h => hf (Or.inr (Or.inr (Or.inl h)))
  have h3 : ¬ ks.keys.length > MaxKeyInKeys :=
    fun h => hf (Or.inr (Or.inr (Or.inr (Or.inl h))))
  have hc : checkEachKey X ks.keys [] = none := by
    rw [checkEachKey_none_iff]
    refine ⟨?_, ?_, fun _ _ => List.not_mem_nil _⟩
    · intro ky hky
      cases hk : ky.IsValid X with
      | none => rfl
      | some err =>
        exact absurd (Or.inr (Or.inr (Or.inr (Or.inr (Or.inl ⟨ky, hky, err, hk⟩))))) hf
    · by_contra hnd
      exact hf (Or.inr (Or.inr (Or.inr (Or.inr (Or.inr (Or.inl hnd))))))
  have h4 : ¬ totalWeight ks.keys < ks.threshold :=
    fun h => hf (Or.inr (Or.inr (Or.inr (Or.inr (Or.inr (Or.inr h))))))
  unfold Keys.IsValidRun
  rw [if_neg h1, hv]
  simp only
  rw [if_neg h2, if_neg h3, hc]
  simp only
  rw [if_neg h4]
  split <;> rfl

/-- C17, as amended: `Keys.Bytes()`, and with it `GenerateHash()` and `NewKeys`,
sort the stored key list in place: after the call the key list held by the
`Keys` value is ordered ascending by raw public-key bytes and is a permutation
of the list before the call, and it is unchanged exactly when it was already in
that order. `IsValid` sorts the list only when it gets as far as regenerating
the hash, as it does whenever it returns no error; an `IsValid` that fails an
earlier check (the threshold range, the validity of the stored hash, the empty
list, the too long list, the validity of a key, a repeated public key, the
total weight) returns an error and leaves the list as it was, and an `IsValid`
that fails none of them leaves the sorted list. `Keys.Equal()` sorts both lists
once thresholds and lengths are found equal, and leaves them as they were
otherwise. -/
theorem keys_sorted_in_place (X : Ext PK H) (ks b : Keys PK H) (keys : List (Key PK))
    (threshold : Nat) :
    ((ks.afterBytes X).keys.Perm ks.keys ∧ ascendingByKeyBytes X (ks.afterBytes X).keys ∧
      ((ks.afterBytes X).keys = ks.keys ↔ ascendingByKeyBytes X ks.keys) ∧
      (ks.afterBytes X).keys.length = ks.keys.length) ∧
    ((NewKeys X keys threshold).1.keys.Perm keys ∧
      ascendingByKeyBytes X (NewKeys X keys threshold).1.keys) ∧
    ((ks.IsValidRun X).1 = ks.IsValid X ∧
      (ks.IsValid X = none → (ks.IsValidRun X).2 = (ks.afterBytes X).keys) ∧
      ((ks.IsValidRun X).2 = ks.keys ∨ (ks.IsValidRun X).2 = (ks.afterBytes X).keys) ∧
      (ks.threshold < 1 ∨ ks.threshold > 100 → (ks.IsValidRun X).2 = ks.keys) ∧
      (failsBeforeHash X ks →
        (ks.IsValidRun X).2 = ks.keys ∧ ∃ err, ks.IsValid X = some err) ∧
      (¬ failsBeforeHash X ks → (ks.IsValidRun X).2 = (ks.afterBytes X).keys)) ∧
    ((ks.EqualRun X b).1 = ks.Equal X b ∧
      (ks.threshold = b.threshold → ks.keys.length = b.keys.length →
        (ks.EqualRun X b).2 = ((ks.afterBytes X).keys, (b.afterBytes X).keys)) ∧
      (ks.threshold ≠ b.threshold ∨ ks.keys.length ≠ b.keys.length →
        (ks.EqualRun X b).2 = (ks.keys, b.keys))) := by
  have hasc : ∀ l : List (Key PK), ascendingByKeyBytes X (sortKeys X l) :=
    fun l => (ascending_iff_ordered X _).2 (sortKeys_ordered X l)
  refine ⟨⟨sortKeys_perm X _, hasc _, sortKeys_eq_self_iff X _, (sortKeys_perm X _).length_eq⟩,
    ⟨sortKeys_perm X _, hasc _⟩,
    ⟨isValidRun_fst X ks, isValidRun_snd_of_none X ks, isValidRun_snd_cases X ks, ?_, ?_,
      isValidRun_of_reach X ks⟩,
    ?_, ?_, ?_⟩
  · intro h
    unfold Keys.IsValidRun
    rw [if_pos h]
  · intro h
    obtain ⟨e1, err, e2⟩ := isValidRun_of_early X ks h
    exact ⟨e1, err, by rw [← isValidRun_fst, e2]⟩
  · unfold Keys.EqualRun Keys.Equal
    split
    · rfl
    · split <;> rfl
  · intro ht hl
    unfold Keys.EqualRun
    rw [if_neg (not_not.2 ht), if_neg (not_not.2 hl)]
    rfl
  · intro h
    unfold Keys.EqualRun
    by_cases ht : ks.threshold ≠ b.threshold
    · rw [if_pos ht]
    · rw [if_neg ht]
      rcases h with h | h
      · exact absurd h ht
      · rw [if_pos h]

/-- Witness for C17 as amended: the demo key set passes `IsValid` and its list
is the sorted one afterwards; a key set with the threshold 0 fails the first
check and keeps its list; a key set of eleven keys out of order, with a
threshold in range, fails the check of the length and keeps its list. -/
theorem keys_sorted_in_place_witness :
    demoKeys.IsValid demoExt = none ∧
    (demoKeys.IsValidRun demoExt).2 = (demoKeys.afterBytes demoExt).keys ∧
    (demoUnsortedKeys.threshold < 1 ∨ demoUnsortedKeys.threshold > 100) ∧
    (demoUnsortedKeys.IsValidRun demoExt).2 = demoUnsortedKeys.keys ∧
    failsBeforeHash demoExt demoElevenKeys ∧
    ((demoElevenKeys.IsValidRun demoExt).2 = demoElevenKeys.keys ∧
      ∃ err, demoElevenKeys.IsValid demoExt = some err) ∧
    demoElevenKeys.IsValid demoExt = some (Err.keysOver 10 11) ∧
    (demoElevenKeys.afterBytes demoExt).keys ≠ demoElevenKeys.keys :=
  ⟨by decide,
    (keys_sorted_in_place demoExt demoKeys demoKeys [] 0).2.2.1.2.1 (by decide),
    by decide,
    (keys_sorted_in_place demoExt demoUnsortedKeys demoKeys [] 0).2.2.1.2.2.2.1 (by decide),
    Or.inr (Or.inr (Or.inr (Or.inl (by decide)))),
    (keys_sorted_in_place demoExt demoElevenKeys demoKeys [] 0).2.2.1.2.2.2.2.1
      (Or.inr (Or.inr (Or.inr (Or.inl (by decide))))),
    by decide, by decide⟩

/-- Counterexample to C17 as stated: a key set with the keys 2, 1 in that order
and the threshold 0. `IsValid` returns at the threshold check, before any
sort, and the key list is still 2, 1 afterwards, which is not ascending. -/
theorem keys_sorted_in_place_counterexample :
    demoUnsortedKeys.IsValidRun demoExt
      = (some (Err.invalidThreshold 0), [demoKeyB, demoKeyA]) ∧
    ¬ ascendingByKeyBytes demoExt (demoUnsortedKeys.IsValidRun demoExt).2 := by
  refine ⟨by decide, ?_⟩
  unfold ascendingByKeyBytes
  decide

end InPlaceSort

/-! ## Validation of a constructed key set -/

section Idempotence

variable {PK H : Type}

/-- C20: validation of a constructed `Keys` is idempotent. For every key list
and threshold for which `NewKeys` returns no error, the returned value passes
`IsValid` again, also on the key list as the first run left it, so that the
re-check of the create-account and key-updater commands never fails; its
`Hash()` is the hash generated from its `Bytes()`; and `Bytes()` called again,
on the list as the previous call left it, returns the same bytes. -/
theorem newKeys_validation_idempotent (X : Ext PK H) (keys : List (Key PK))
    (threshold : Nat) (hok : (NewKeys X keys threshold).2 = none) :
    Keys.IsValid X (NewKeys X keys threshold).1 = none ∧
    (Keys.IsValidRun X (NewKeys X keys threshold).1).2 = (NewKeys X keys threshold).1.keys ∧
    parseFlagsKeys X keys threshold = Except.ok (NewKeys X keys threshold).1 ∧
    (NewKeys X keys threshold).1.h = Keys.GenerateHash X (NewKeys X keys threshold).1 ∧
    Keys.afterBytes X (NewKeys X keys threshold).1 = (NewKeys X keys threshold).1 ∧
    Keys.Bytes X (Keys.afterBytes X (NewKeys X keys threshold).1)
      = Keys.Bytes X (NewKeys X keys threshold).1 := by
  have hv : Keys.IsValid X (NewKeys X keys threshold).1 = none := hok
  have hkeys : (NewKeys X keys threshold).1.keys = sortKeys X keys := rfl
  have hrun : (Keys.IsValidRun X (NewKeys X keys threshold).1).2
      = (NewKeys X keys threshold).1.keys := by
    rw [isValidRun_snd_of_none X _ hv, hkeys, sortKeys_idem]
  have hafter : Keys.afterBytes X (NewKeys X keys threshold).1 = (NewKeys X keys threshold).1 := by
    unfold Keys.afterBytes
    rw [hkeys, sortKeys_idem]
    rfl
  refine ⟨hv, hrun, ?_, ?_, hafter, by rw [hafter]⟩
  · have hsame : ({ (NewKeys X keys threshold).1 with
        keys := (Keys.IsValidRun X (NewKeys X keys threshold).1).2 } : Keys PK H)
        = (NewKeys X keys threshold).1 := by
      rw [hrun]
    unfold parseFlagsKeys
    cases hn : NewKeys X keys threshold with
    | mk kys r =>
      rw [hn] at hok hsame hv
      simp only at hok hsame hv
      subst hok
      simp only [hsame, hv]
  · simp [NewKeys, Keys.GenerateHash, Keys.Bytes, keysBytes_sortKeys]

/-- Witness for C20: the demo key set, built from its keys in the order 2, 1. -/
theorem newKeys_validation_idempotent_witness :
    (NewKeys demoExt [demoKeyB, demoKeyA] 100).2 = none ∧
    Keys.IsValid demoExt (NewKeys demoExt [demoKeyB, demoKeyA] 100).1 = none ∧
    parseFlagsKeys demoExt [demoKeyB, demoKeyA] 100
      = Except.ok (NewKeys demoExt [demoKeyB, demoKeyA] 100).1 :=
  have h := newKeys_validation_idempotent demoExt [demoKeyB, demoKeyA] 100 (by decide)
  ⟨by decide, h.1, h.2.2.1⟩

end Idempotence

/-! ## Claims about the digest send handler -/

section SendFacts

variable {O OS SL R SS HL : Type} (E : SendExt O OS SL R SS HL)

theorem sendSeal_calls (send : SendItem O OS SL → Except Err SS) (v : SendItem O OS SL) :
    (sendSeal E send v).1 = [v] := by
  unfold sendSeal
  split <;> rfl

theorem firstInvalidOperation_none_iff (ops : List O) :
    firstInvalidOperation E ops = none ↔ ∀ op ∈ ops, E.opIsValid op = none := by
  induction ops with
  | nil => simp [firstInvalidOperation]
  | cons op t ih =>
    unfold firstInvalidOperation
    cases hv : E.opIsValid op with
    | some err => simp [hv]
    | none => simp [hv, ih]

theorem decodeOperations_ok (v : List R) (ops : List O)
    (h : decodeOperations E v = Except.ok ops) :
    (v.map E.DecodeByHint = ops.map (fun op => Except.ok (some op))) ∧
    ∀ op ∈ ops, E.opIsValid op = none := by
  induction v generalizing ops with
  | nil =>
    simp only [decodeOperations, Except.ok.injEq] at h
    subst h
    simp
  | cons r t ih =>
    unfold decodeOperations at h
    split at h
    · cases h
    · cases h
    · rename_i op hd
      split at h
      · cases h
      · rename_i hv
        split at h
        · cases h
        · rename_i ops2 hrest
          simp only [Except.ok.injEq] at h
          subst h
          obtain ⟨h1, h2⟩ := ih ops2 hrest
          refine ⟨by simp [hd, h1], ?_⟩
          intro o ho
          rcases List.mem_cons.1 ho with rfl | ho
          · exact hv
          · exact h2 o ho

theorem decodeOperations_error (v : List R)
    (h : ∃ r ∈ v, (∃ err, E.DecodeByHint r = Except.error err) ∨
      E.DecodeByHint r = Except.ok none ∨
      (∃ op err, E.DecodeByHint r = Except.ok (some op) ∧ E.opIsValid op = some err)) :
    ∃ err, decodeOperations E v = Except.error err := by
  cases hd : decodeOperations E v with
  | error err => exact ⟨err, rfl⟩
  | ok ops =>
    exfalso
    obtain ⟨h1, h2⟩ := decodeOperations_ok E v ops hd
    obtain ⟨r, hr, hcase⟩ := h
    have hmem : E.DecodeByHint r ∈ ops.map (fun op => Except.ok (some op)) := by
      rw [← h1]
      exact List.mem_map.2 ⟨r, hr, rfl⟩
    obtain ⟨op, hop, heq⟩ := List.mem_map.1 hmem
    rcases hcase with ⟨err, he⟩ | he | ⟨op2, err, he, hv⟩
    · rw [he] at heq; cases heq
    · rw [he] at heq; cases heq
    · rw [he] at heq
      cases heq
      rw [h2 op hop] at hv
      cases hv

end SendFacts

section SendClaims

variable {O OS SL R SS HL : Type}

/-- C18: the digest send handler never forwards an invalid operation. In
`sendItem`, `send` is called at most once, with the submitted item, and only
when every operation of an operation seal has passed `IsValid` and the seal
itself is valid or fails with a signature-verification failure only, when
another seal is valid, or when a single operation is valid; if an operation
fails validation, or an operation seal fails for another reason, or the item
is of an unsupported type, an error is returned and `send` is not called. In
`sendOperations`, `send` is called at most once, with the seal of the decoded
operations, and only when every message decodes to an operation that has passed
`IsValid`; otherwise an error is returned and `send` is not called. -/
theorem send_only_valid (E : SendExt O OS SL R SS HL)
    (send : SendItem O OS SL → Except Err SS) (v : SendItem O OS SL) (raw : List R) :
    (((sendItem E send v).1 = [] ∧ ∃ err, (sendItem E send v).2 = Except.error err) ∨
      ((sendItem E send v).1 = [v] ∧
        (∀ t, v = SendItem.operationSeal t →
          (∀ op ∈ E.Operations t, E.opIsValid op = none) ∧
          (E.opSealIsValid t = none ∨
            ∃ err, E.opSealIsValid t = some err ∧
              E.isSignatureVerificationFailed err = true)) ∧
        (∀ t, v = SendItem.otherSeal t → E.sealIsValid t = none) ∧
        (∀ t, v = SendItem.operation t → E.opIsValid t = none) ∧
        v ≠ SendItem.other)) ∧
    (((∃ t, v = SendItem.operationSeal t ∧
          ((∃ op ∈ E.Operations t, ∃ err, E.opIsValid op = some err) ∨
            ∃ err, E.opSealIsValid t = some err ∧
              E.isSignatureVerificationFailed err = false)) ∨
        (∃ t err, v = SendItem.otherSeal t ∧ E.sealIsValid t = some err) ∨
        (∃ t err, v = SendItem.operation t ∧ E.opIsValid t = some err) ∨
        v = SendItem.other) →
      (sendItem E send v).1 = [] ∧ ∃ err, (sendItem E send v).2 = Except.error err) ∧
    (((sendOperations E send raw).1 = [] ∧
        ∃ err, (sendOperations E send raw).2 = Except.error err) ∨
      ∃ ops, raw.map E.DecodeByHint = ops.map (fun op => Except.ok (some op)) ∧
        (∀ op ∈ ops, E.opIsValid op = none) ∧
        (sendOperations E send raw).1 = [SendItem.operationSeal (E.SetOperations ops)]) ∧
    ((∃ r ∈ raw, (∃ err, E.DecodeByHint r = Except.error err) ∨
        E.DecodeByHint r = Except.ok none ∨
        (∃ op err, E.DecodeByHint r = Except.ok (some op) ∧ E.opIsValid op = some err)) →
      (sendOperations E send raw).1 = [] ∧
        ∃ err, (sendOperations E send raw).2 = Except.error err) := by
  have hitem : ((sendItem E send v).1 = [] ∧ ∃ err, (sendItem E send v).2 = Except.error err) ∨
      ((sendItem E send v).1 = [v] ∧
        (∀ t, v = SendItem.operationSeal t →
          (∀ op ∈ E.Operations t, E.opIsValid op = none) ∧
          (E.opSealIsValid t = none ∨
            ∃ err, E.opSealIsValid t = some err ∧
              E.isSignatureVerificationFailed err = true)) ∧
        (∀ t, v = SendItem.otherSeal t → E.sealIsValid t = none) ∧
        (∀ t, v = SendItem.operation t → E.opIsValid t = none) ∧
        v ≠ SendItem.other) := by
    cases v with
    | operationSeal t =>
      cases hf : firstInvalidOperation E (E.Operations t) with
      | some err => left; simp [sendItem, hf]
      | none =>
        have hops := (firstInvalidOperation_none_iff E _).1 hf
        cases hs : E.opSealIsValid t with
        | none =>
          have e : sendItem E send (SendItem.operationSeal t)
              = sendSeal E send (SendItem.operationSeal t) := by simp [sendItem, hf, hs]
          right
          rw [e, sendSeal_calls]
          refine ⟨rfl, ?_, ?_, ?_, ?_⟩
          · intro t2 e; cases e; exact ⟨hops, Or.inl hs⟩
          · intro t2 e; cases e
          · intro t2 e; cases e
          · intro e; cases e
        | some err =>
          cases hsig : E.isSignatureVerificationFailed err
          · left; simp [sendItem, hf, hs, hsig]
          · have e : sendItem E send (SendItem.operationSeal t)
                = sendSeal E send (SendItem.operationSeal t) := by
              simp [sendItem, hf, hs, hsig]
            right
            rw [e, sendSeal_calls]
            refine ⟨rfl, ?_, ?_, ?_, ?_⟩
            · intro t2 e; cases e; exact ⟨hops, Or.inr ⟨err, hs, hsig⟩⟩
            · intro t2 e; cases e
            · intro t2 e; cases e
            · intro e; cases e
    | otherSeal t =>
      cases hs : E.sealIsValid t with
      | some err => left; simp [sendItem, hs]
      | none =>
        have e : sendItem E send (SendItem.otherSeal t)
            = sendSeal E send (SendItem.otherSeal t) := by simp [sendItem, hs]
        right
        rw [e, sendSeal_calls]
        refine ⟨rfl, ?_, ?_, ?_, ?_⟩
        · intro t2 e; cases e
        · intro t2 e; cases e; exact hs
        · intro t2 e; cases e
        · intro e; cases e
    | operation t =>
      cases hs : E.opIsValid t with
      | some err => left; simp [sendItem, hs]
      | none =>
        have e : sendItem E send (SendItem.operation t)
            = sendSeal E send (SendItem.operation t) := by simp [sendItem, hs]
        right
        rw [e, sendSeal_calls]
        refine ⟨rfl, ?_, ?_, ?_, ?_⟩
        · intro t2 e; cases e
        · intro t2 e; cases e
        · intro t2 e; cases e; exact hs
        · intro e; cases e
    | other => left; simp [sendItem]
  have hops : ((sendOperations E send raw).1 = [] ∧
        ∃ err, (sendOperations E send raw).2 = Except.error err) ∨
      ∃ ops, raw.map E.DecodeByHint = ops.map (fun op => Except.ok (some op)) ∧
        (∀ op ∈ ops, E.opIsValid op = none) ∧
        (sendOperations E send raw).1 = [SendItem.operationSeal (E.SetOperations ops)] := by
    cases hd : decodeOperations E raw with
    | error err => left; simp [sendOperations, hd]
    | ok ops =>
      right
      obtain ⟨h1, h2⟩ := decodeOperations_ok E raw ops hd
      have e : sendOperations E send raw
          = sendSeal E send (SendItem.operationSeal (E.SetOperations ops)) := by
        simp [sendOperations, hd]
      exact ⟨ops, h1, h2, by rw [e, sendSeal_calls]⟩
  refine ⟨hitem, ?_, hops, ?_⟩
  · intro hbad
    rcases hitem with h | ⟨_, h1, h2, h3, h4⟩
    · exact h
    · exfalso
      rcases hbad with ⟨t, rfl, hcase⟩ | ⟨t, err, rfl, he⟩ | ⟨t, err, rfl, he⟩ | rfl
      · obtain ⟨ha, hb⟩ := h1 t rfl
        rcases hcase with ⟨op, hop, err, he⟩ | ⟨err, he, hsig⟩
        · rw [ha op hop] at he; cases he
        · rcases hb with hb | ⟨err2, hb, hsig2⟩
          · rw [hb] at he; cases he
          · rw [hb] at he
            cases he
            rw [hsig2] at hsig
            cases hsig
      · rw [h2 t rfl] at he; cases he
      · rw [h3 t rfl] at he; cases he
      · exact h4 rfl
  · intro hbad
    obtain ⟨err, he⟩ := decodeOperations_error E raw hbad
    simp [sendOperations, he]

/-- Witness for C18: an operation seal whose second operation is invalid, and
a list of messages whose second operation is invalid; neither reaches
`send`. -/
theorem send_only_valid_witness :
    ((sendItem demoSendExt demoSend (SendItem.operationSeal [1, 0, 2])).1 = [] ∧
      ∃ err, (sendItem demoSendExt demoSend (SendItem.operationSeal [1, 0, 2])).2
        = Except.error err) ∧
    ((sendOperations demoSendExt demoSend [1, 0]).1 = [] ∧
      ∃ err, (sendOperations demoSendExt demoSend [1, 0]).2 = Except.error err) :=
  ⟨(send_only_valid demoSendExt demoSend (SendItem.operationSeal [1, 0, 2]) [1, 0]).2.1
      (Or.inl ⟨[1, 0, 2], rfl, Or.inl ⟨0, by decide, Err.ext 1, rfl⟩⟩),
   (send_only_valid demoSendExt demoSend (SendItem.operationSeal [1, 0, 2]) [1, 0]).2.2.2
      ⟨0, by decide, Or.inr (Or.inr ⟨0, Err.ext 1, rfl, rfl⟩)⟩⟩

end SendClaims

/-! ## Claims about the CurrencyPolicyUpdater processor -/

section PolicyFacts

variable {PK H A P S : Type} (X : Ext PK H) (E : PolicyExt A P S)

theorem countSuffrageSigns_ok_length (pubs : List PK) (fs : List (FactSign PK)) (n : Nat)
    (h : countSuffrageSigns X pubs fs = Except.ok n) : n = fs.length := by
  induction fs generalizing n with
  | nil =>
    simp only [countSuffrageSigns, Except.ok.injEq] at h
    simp [← h]
  | cons f t ih =>
    unfold countSuffrageSigns at h
    split at h
    · split at h
      · cases h
      · rename_i m hm
        simp only [Except.ok.injEq] at h
        rw [← h, ih m hm]
        rfl
    · cases h

theorem countSuffrageSigns_known (pubs : List PK) (fs : List (FactSign PK))
    (hk : ∀ f ∈ fs, pubs.any (fun p => X.pkEqual p f.signer) = true) :
    countSuffrageSigns X pubs fs = Except.ok fs.length := by
  induction fs with
  | nil => rfl
  | cons f t ih =>
    unfold countSuffrageSigns
    rw [if_pos (hk f (by simp)), ih (fun g hg => hk g (by simp [hg]))]
    rfl

theorem existsState_ok_iff (key : GoBytes) (getState : GoBytes → Except Err (S × Bool))
    (st : S) : existsState key getState = Except.ok st ↔ getState key = Except.ok (st, true) := by
  unfold existsState
  cases hg : getState key with
  | error err => simp
  | ok p =>
    obtain ⟨s, found⟩ := p
    cases found <;> simp

end PolicyFacts

section PolicyClaims

variable {PK H A P S : Type}

/-- C14: a `CurrencyPolicyUpdater` that is processed successfully records one
state, the currency-design state of its currency, holding the previous design
with the same `Amount` (total supply) and the same genesis account and with the
new policy; nothing else is written. An operation signed by the whole
validator set, for a currency whose design exists, is processed in this way.
The processor is not among the sources. -/
theorem policy_update_keeps_amount (X : Ext PK H) (E : PolicyExt A P S)
    (opp : CurrencyPolicyUpdaterProcessor PK) (op : CurrencyPolicyUpdater PK H P)
    (getState : GoBytes → Except Err (S × Bool)) (setState : H → List S → Option Err) :
    ((CurrencyPolicyUpdaterProcessor.Process X E opp op getState setState).2 = none →
      ∃ st de nst,
        getState (E.StateKeyCurrencyDesign op.fact.cid) = Except.ok (st, true) ∧
        E.StateCurrencyDesignValue st = Except.ok de ∧
        E.SetStateCurrencyDesignValue st
          { amount := de.amount, genesisAccount := de.genesisAccount,
            policy := op.fact.policy } = Except.ok nst ∧
        (CurrencyPolicyUpdaterProcessor.Process X E opp op getState setState).1
          = [PoolCall.getState (E.StateKeyCurrencyDesign op.fact.cid),
             PoolCall.setState op.fact.h [nst]]) ∧
    (∀ st de nst, (∀ p, X.pkEqual p p = true) → opp.pubs ≠ [] →
      op.fs.map FactSign.signer = opp.pubs → opp.threshold ≤ opp.pubs.length →
      getState (E.StateKeyCurrencyDesign op.fact.cid) = Except.ok (st, true) →
      E.StateCurrencyDesignValue st = Except.ok de →
      E.SetStateCurrencyDesignValue st
        { amount := de.amount, genesisAccount := de.genesisAccount,
          policy := op.fact.policy } = Except.ok nst →
      CurrencyPolicyUpdaterProcessor.Process X E opp op getState setState
        = ([PoolCall.getState (E.StateKeyCurrencyDesign op.fact.cid),
            PoolCall.setState op.fact.h [nst]], setState op.fact.h [nst])) := by
  constructor
  · intro hsucc
    unfold CurrencyPolicyUpdaterProcessor.Process at hsucc ⊢
    split at hsucc
    · cases hsucc
    · split at hsucc
      · cases hsucc
      · rename_i st hst
        split at hsucc
        · cases hsucc
        · rename_i de hde
          split at hsucc
          · cases hsucc
          · rename_i nst hnst
            exact ⟨st, de, nst, (existsState_ok_iff _ _ _).1 hst, hde, hnst, rfl⟩
  · intro st de nst hrefl hne hsig hth hget hde hnst
    have hknown : ∀ f ∈ op.fs, opp.pubs.any (fun p => X.pkEqual p f.signer) = true := by
      intro f hf
      rw [List.any_eq_true]
      refine ⟨f.signer, ?_, hrefl _⟩
      rw [← hsig]
      exact List.mem_map.2 ⟨f, hf, rfl⟩
    have hlen : op.fs.length = opp.pubs.length := by
      rw [← hsig, List.length_map]
    have hpos : ¬ opp.pubs.length < 1 := by
      cases hp : opp.pubs with
      | nil => exact absurd hp hne
      | cons a t => simp
    have hcheck : checkSuffrageSigns X opp.pubs opp.threshold op.fs = none := by
      unfold checkSuffrageSigns
      rw [if_neg hpos, countSuffrageSigns_known X opp.pubs op.fs hknown]
      simp only
      rw [if_neg (by omega)]
    have hst := (existsState_ok_iff (E.StateKeyCurrencyDesign op.fact.cid) getState st).2 hget
    have hnst2 : E.SetStateCurrencyDesignValue st { de with policy := op.fact.policy }
        = Except.ok nst := hnst
    unfold CurrencyPolicyUpdaterProcessor.Process
    simp only [hcheck, hst, hde, hnst2]

/-- Witness for C14: three validators, all signing; the design of currency
`[7]` keeps its 33 units and its genesis account and gets the policy 1. -/
theorem policy_update_keeps_amount_witness :
    (CurrencyPolicyUpdaterProcessor.Process demoExt demoPolicyExt demoPolicyProcessor
      (demoPolicyUpdate [[1], [2], [3]]) demoPolicyGetState (fun _ _ => none)).2 = none ∧
    ∃ st de nst,
      demoPolicyGetState (demoPolicyExt.StateKeyCurrencyDesign
        (demoPolicyUpdate [[1], [2], [3]]).fact.cid) = Except.ok (st, true) ∧
      demoPolicyExt.StateCurrencyDesignValue st = Except.ok de ∧
      demoPolicyExt.SetStateCurrencyDesignValue st
        { amount := de.amount, genesisAccount := de.genesisAccount,
          policy := (demoPolicyUpdate [[1], [2], [3]]).fact.policy } = Except.ok nst ∧
      (CurrencyPolicyUpdaterProcessor.Process demoExt demoPolicyExt demoPolicyProcessor
        (demoPolicyUpdate [[1], [2], [3]]) demoPolicyGetState (fun _ _ => none)).1
        = [PoolCall.getState (demoPolicyExt.StateKeyCurrencyDesign
            (demoPolicyUpdate [[1], [2], [3]]).fact.cid),
           PoolCall.setState (demoPolicyUpdate [[1], [2], [3]]).fact.h [nst]] :=
  ⟨by decide,
    (policy_update_keeps_amount demoExt demoPolicyExt demoPolicyProcessor
      (demoPolicyUpdate [[1], [2], [3]]) demoPolicyGetState (fun _ _ => none)).1 (by decide)⟩

/-- C15: processing a `CurrencyPolicyUpdater`, whatever its signatures, with a
processor configured with no validator public key fails with the "empty
publickeys" error, which is not the "not enough suffrage signs" rejection, and
makes no call on the state pool. The processor is not among the sources. -/
theorem policy_update_empty_pubs (X : Ext PK H) (E : PolicyExt A P S) (threshold : Nat)
    (op : CurrencyPolicyUpdater PK H P)
    (getState : GoBytes → Except Err (S × Bool)) (setState : H → List S → Option Err) :
    CurrencyPolicyUpdaterProcessor.Process X E { pubs := [], threshold := threshold } op
      getState setState = ([], some Err.emptyPublickeys) ∧
    Err.emptyPublickeys ≠ Err.notEnoughSuffrageSigns := by
  refine ⟨?_, by decide⟩
  unfold CurrencyPolicyUpdaterProcessor.Process checkSuffrageSigns
  simp

/-- C16: with a validator set of `n` public keys and a threshold that requires
all `n` of them, a `CurrencyPolicyUpdater` that carries fewer than `n`
signatures, each by a validator, is rejected with the "not enough suffrage
signs" error and makes no call on the state pool; with fewer than `n`
signatures of any signers it is rejected and makes no call on the state pool.
The processor is not among the sources. -/
theorem policy_update_not_enough_signs (X : Ext PK H) (E : PolicyExt A P S)
    (opp : CurrencyPolicyUpdaterProcessor PK) (op : CurrencyPolicyUpdater PK H P)
    (getState : GoBytes → Except Err (S × Bool)) (setState : H → List S → Option Err)
    (hall : opp.threshold = opp.pubs.length)
    (hfew : op.fs.length < opp.pubs.length) :
    ((∀ f ∈ op.fs, opp.pubs.any (fun p => X.pkEqual p f.signer) = true) →
      CurrencyPolicyUpdaterProcessor.Process X E opp op getState setState
        = ([], some Err.notEnoughSuffrageSigns)) ∧
    ((CurrencyPolicyUpdaterProcessor.Process X E opp op getState setState).1 = [] ∧
      ∃ err, (CurrencyPolicyUpdaterProcessor.Process X E opp op getState setState).2
        = some err) := by
  have hpos : ¬ opp.pubs.length < 1 := by omega
  have hrej : ∃ err, checkSuffrageSigns X opp.pubs opp.threshold op.fs = some err := by
    unfold checkSuffrageSigns
    rw [if_neg hpos]
    cases hc : countSuffrageSigns X opp.pubs op.fs with
    | error err => exact ⟨err, rfl⟩
    | ok n =>
      have := countSuffrageSigns_ok_length X opp.pubs op.fs n hc
      simp only
      rw [if_pos (by omega)]
      exact ⟨_, rfl⟩
  constructor
  · intro hk
    have hcheck : checkSuffrageSigns X opp.pubs opp.threshold op.fs
        = some Err.notEnoughSuffrageSigns := by
      unfold checkSuffrageSigns
      rw [if_neg hpos, countSuffrageSigns_known X opp.pubs op.fs hk]
      simp only
      rw [if_pos (by omega)]
    unfold CurrencyPolicyUpdaterProcessor.Process
    simp only [hcheck]
  · obtain ⟨err, he⟩ := hrej
    unfold CurrencyPolicyUpdaterProcessor.Process
    rw [he]
    exact ⟨rfl, err, rfl⟩

/-- Witness for C16: three validators, all required, and two of them
signing. -/
theorem policy_update_not_enough_signs_witness :
    demoPolicyProcessor.threshold = demoPolicyProcessor.pubs.length ∧
    (demoPolicyUpdate [[1], [2]]).fs.length < demoPolicyProcessor.pubs.length ∧
    CurrencyPolicyUpdaterProcessor.Process demoExt demoPolicyExt demoPolicyProcessor
      (demoPolicyUpdate [[1], [2]]) demoPolicyGetState (fun _ _ => none)
      = ([], some Err.notEnoughSuffrageSigns) :=
  ⟨by decide, by decide,
    (policy_update_not_enough_signs demoExt demoPolicyExt demoPolicyProcessor
      (demoPolicyUpdate [[1], [2]]) demoPolicyGetState (fun _ _ => none)
      (by decide) (by decide)).1 (by decide)⟩

end PolicyClaims

/-! ## Claims about checkThreshold on a valid key set -/

section ValidKeys

variable {PK H : Type}

theorem keys_isValid_none_imp (X : Ext PK H) (ks : Keys PK H) (h : ks.IsValid X = none) :
    (1 ≤ ks.threshold ∧ ks.threshold ≤ 100) ∧ (1 ≤ ks.keys.length ∧ ks.keys.length ≤ 10) ∧
    (∀ ky ∈ ks.keys, 1 ≤ ky.w ∧ ky.w ≤ 100 ∧ X.pkIsValid ky.k = none) ∧
    (ks.keys.map (fun ky => X.pkString ky.k)).Nodup ∧
    (ks.keys.map Key.Weight).sum ≤ 1000 ∧
    ks.threshold ≤ (ks.keys.map Key.Weight).sum := by
  unfold Keys.IsValid at h
  simp only [totalWeight_eq, MaxKeyInKeys] at h
  split at h
  · cases h
  · rename_i hth
    split at h
    · cases h
    · split at h
      · cases h
      · rename_i hl1
        split at h
        · cases h
        · rename_i hl2
          split at h
          · cases h
          · rename_i hc
            obtain ⟨hk1, hk2, _⟩ := (checkEachKey_none_iff X ks.keys []).1 hc
            have hk : ∀ ky ∈ ks.keys, 1 ≤ ky.w ∧ ky.w ≤ 100 ∧ X.pkIsValid ky.k = none :=
              fun ky hky => (key_isValid_none_iff X ky).1 (hk1 ky hky)
            have hle : (ks.keys.map Key.Weight).sum ≤ 1000 := by
              have := weight_sum_le ks.keys (fun ky hky => (hk ky hky).2.1)
              omega
            have hbound : (ks.keys.map Key.Weight).sum < UintMod :=
              lt_of_le_of_lt hle (by decide)
            rw [Nat.mod_eq_of_lt hbound] at h
            split at h
            · cases h
            · rename_i hw
              exact ⟨by omega, by omega, hk, hk2, hle, by omega⟩

theorem keys_key_finds_own (X : Ext PK H) (hrefl : ∀ k, X.pkEqual k k = true)
    (hstr : ∀ a b, X.pkEqual a b = true → X.pkString a = X.pkString b)
    (ks : Keys PK H) (hnd : (ks.keys.map (fun ky => X.pkString ky.k)).Nodup)
    (ky : Key PK) (hky : ky ∈ ks.keys) : ks.Key X ky.k = some ky := by
  unfold Keys.Key
  generalize ks.keys = l at hnd hky
  induction l with
  | nil => cases hky
  | cons x t ih =>
    rw [List.map_cons, List.nodup_cons] at hnd
    rw [List.find?_cons]
    cases hx : X.pkEqual x.k ky.k
    · simp only
      rcases List.mem_cons.1 hky with rfl | hmem
      · rw [hrefl] at hx; cases hx
      · exact ih hnd.2 hmem
    · simp only
      rcases List.mem_cons.1 hky with rfl | hmem
      · rfl
      · exfalso
        apply hnd.1
        rw [hstr _ _ hx]
        exact List.mem_map.2 ⟨ky, hmem, rfl⟩

end ValidKeys

section ValidKeysClaims

variable {PK H : Type}

/-- C21: for every `Keys` value that passes `IsValid`, `checkThreshold` rejects
the empty list of fact signatures with the "not passed threshold" error (sum 0
against a threshold of at least 1): an operation carrying no signatures is
never authorized by a valid key set. -/
theorem checkThreshold_empty_rejected (X : Ext PK H) (ks : Keys PK H)
    (hv : ks.IsValid X = none) :
    checkThreshold X [] ks = some (Err.notPassedThreshold 0 ks.Threshold) ∧
    checkThreshold X [] ks ≠ none ∧ 1 ≤ ks.Threshold := by
  have hth := (keys_isValid_none_imp X ks hv).1.1
  have e : checkThreshold X [] ks = some (Err.notPassedThreshold 0 ks.Threshold) := by
    unfold checkThreshold checkThresholdLoop
    simp only
    rw [if_pos (show 0 < ks.Threshold from hth)]
  refine ⟨e, ?_, hth⟩
  rw [e]
  exact fun h => by cases h

/-- Witness for C21: the demo key set and no signature. -/
theorem checkThreshold_empty_rejected_witness :
    demoKeys.IsValid demoExt = none ∧
    checkThreshold demoExt [] demoKeys = some (Err.notPassedThreshold 0 100) :=
  ⟨by decide, (checkThreshold_empty_rejected demoExt demoKeys (by decide)).1⟩

/-- C22: for every `Keys` value that passes `IsValid`, the signature list in
which each key of the set signs exactly once, in any order, is accepted by
`checkThreshold`: every signer is found, as the key itself with its own weight,
and the weights add up to the total weight of the set, which is at most
10 x 100 = 1000, so the `uint` sum does not wrap, and at least the threshold.
Public keys are taken to be `Equal` to themselves and to have the same
`String()` when they are `Equal`. -/
theorem checkThreshold_full_set_accepted (X : Ext PK H)
    (hrefl : ∀ k, X.pkEqual k k = true)
    (hstr : ∀ a b, X.pkEqual a b = true → X.pkString a = X.pkString b)
    (ks : Keys PK H) (hv : ks.IsValid X = none)
    (fs : List (FactSign PK)) (hfs : signsOncePerKey fs ks) :
    checkThreshold X fs ks = none ∧
    (∀ ky ∈ ks.keys, ks.Key X ky.k = some ky) ∧
    listedWeight X fs ks = (ks.keys.map Key.Weight).sum ∧
    (ks.keys.map Key.Weight).sum ≤ 1000 ∧
    (ks.keys.map Key.Weight).sum < UintMod ∧
    ks.Threshold ≤ (ks.keys.map Key.Weight).sum := by
  obtain ⟨_, _, _, hnd, hle, hsum⟩ := keys_isValid_none_imp X ks hv
  have hown := keys_key_finds_own X hrefl hstr ks hnd
  have hbound : (ks.keys.map Key.Weight).sum < UintMod := lt_of_le_of_lt hle (by decide)
  have hknown : allSignersKnown X fs ks := by
    intro f hf
    have : f.signer ∈ ks.keys.map (fun ky => ky.k) :=
      hfs.mem_iff.1 (List.mem_map.2 ⟨f, hf, rfl⟩)
    obtain ⟨ky, hky, hk⟩ := List.mem_map.1 this
    rw [← hk, hown ky hky]
    rfl
  have hlw : listedWeight X fs ks = (ks.keys.map Key.Weight).sum := by
    have e1 : listedWeight X fs ks
        = ((fs.map FactSign.signer).map (signerWeight X ks)).sum := by
      unfold listedWeight
      rw [List.map_map]
      rfl
    have e2 : ((ks.keys.map (fun ky => ky.k)).map (signerWeight X ks))
        = ks.keys.map Key.Weight := by
      rw [List.map_map]
      apply List.map_congr_left
      intro ky hky
      simp only [Function.comp, signerWeight, hown ky hky]
    rw [e1, (hfs.map (signerWeight X ks)).sum_eq, e2]
  refine ⟨?_, hown, hlw, hle, hbound, hsum⟩
  rw [checkThreshold_none_iff]
  refine ⟨hknown, ?_⟩
  rw [hlw, Nat.mod_eq_of_lt hbound]
  exact hsum

/-- Witness for C22: the two keys of the demo set sign once each, in the order
opposite to the stored one. -/
theorem checkThreshold_full_set_accepted_witness :
    (∀ k, demoExt.pkEqual k k = true) ∧
    (∀ a b, demoExt.pkEqual a b = true → demoExt.pkString a = demoExt.pkString b) ∧
    demoKeys.IsValid demoExt = none ∧
    signsOncePerKey [demoSign [2], demoSign [1]] demoKeys ∧
    checkThreshold demoExt [demoSign [2], demoSign [1]] demoKeys = none :=
  ⟨fun k => by simp [demoExt], fun a b h => by simpa [demoExt] using h, by decide,
    List.Perm.swap _ _ _,
    (checkThreshold_full_set_accepted demoExt (fun k => by simp [demoExt])
      (fun a b h => by simpa [demoExt] using h) demoKeys (by decide)
      [demoSign [2], demoSign [1]] (List.Perm.swap _ _ _)).1⟩

end ValidKeysClaims

end MitumCurrency
